import Mathlib

/-!
Verification development for the `opencode-github-explorer` repository.

The development shallowly embeds the three core components of the repo:

* `src/url-parser.ts` — `parseGitHubUrl` and `validateGitHubNames`.
  The JavaScript regexes are embedded as executable functions on `List Char`.
  The lazy group `(.+?)(\.git)?$` of the web/SSH patterns is embedded by its
  deterministic behaviour: the shortest successful match strips one trailing
  `".git"` whenever the part before it is non-empty.  The JS `.` (no `s` flag)
  does not match the four line terminators, and `String.prototype.trim`
  removes Unicode whitespace at both ends; both are embedded explicitly.

* `src/metadata-manager.ts` — the metadata store (two scopes, JSON files).
  A file is `missing`, `corrupt` (unreadable / not an array) or `ok entries`.
  The JS `Map`-based merge of `load()` is embedded by an insertion-order fold.

* `src/clone-manager.ts` — the cache lifecycle manager.  Filesystem artifacts
  are tracked per path (`absent`, `noGit`, `gitEmpty`, `valid`); `git clone`,
  `rm -rf` and metadata writes are effectful operations whose success is
  decided by an `Env` of oracles (`cloneOk`, `rmOk`, `saveOk`).  Directory
  scaffolding (`mkdir -p`) does not affect artifact states.  `Date.now()` is
  a monotone clock read (each read advances the clock, as real time does).
-/

/-! ## Characters, JS trim and line terminators -/

/-- Whitespace removed by JavaScript `String.prototype.trim` (WhiteSpace and
LineTerminator code points). -/
def jsWhitespace (c : Char) : Bool :=
  c == ' ' || c == '\t' || c == '\n' || c == '\r' || c == '\x0b' || c == '\x0c' ||
  c == ' ' || c == '﻿' || c == ' ' ||
  (' ' ≤ c && c ≤ ' ') ||
  c == ' ' || c == ' ' || c == ' ' || c == ' ' || c == '　'

/-- JS line terminators: the characters not matched by `.` without the `s` flag. -/
def lineTerm (c : Char) : Bool :=
  c == '\n' || c == '\r' || c == ' ' || c == ' '

/-- `input.trim()` on the character list. -/
def jsTrim (l : List Char) : List Char :=
  ((l.dropWhile jsWhitespace).reverse.dropWhile jsWhitespace).reverse

/-! ## url-parser.ts -/

/-- Result of `parseGitHubUrl` (`ParsedGitHubUrl` in `src/url-parser.ts`). -/
structure ParsedGitHubUrl where
  owner : String
  repo : String
  key : String
  url : String
deriving DecidableEq, Repr

/-- Strip an expected literal prefix; `none` if the list does not start with it. -/
def stripLit : List Char → List Char → Option (List Char)
  | [], l => some l
  | _ :: _, [] => none
  | p :: ps, c :: cs => if c = p then stripLit ps cs else none

/-- Split at the first `'/'`: `some (before, after)`, or `none` if there is no
slash.  This is how the anchored group `([^\/]+)\/` consumes its input: the
character class cannot cross a slash, so the matched slash is the first one. -/
def breakAtSlash : List Char → Option (List Char × List Char)
  | [] => none
  | c :: cs =>
    if c = '/' then some ([], cs)
    else
      match breakAtSlash cs with
      | none => none
      | some (a, b) => some (c :: a, b)

/-- The characters of the literal `".git"`. -/
def gitSuffix : List Char := ['.', 'g', 'i', 't']

/-- Behaviour of the anchored tail `(.+?)(\.git)?$` of the web/SSH patterns on
the text after the owner's slash.  The lazy `.+?` takes the shortest prefix
that lets the rest match, so a trailing `".git"` is stripped exactly when the
part before it is non-empty; `.` does not match line terminators. -/
def repoOfRest (rest : List Char) : Option (List Char) :=
  if gitSuffix.isSuffixOf rest ∧ 4 < rest.length then
    let r := rest.take (rest.length - 4)
    if r.all (fun c => !lineTerm c) then some r else none
  else if rest ≠ [] ∧ rest.all (fun c => !lineTerm c) then some rest
  else none

/-- Pattern 1 of `parseGitHubUrl`:
`/^https?:\/\/github\.com\/([^\/]+)\/(.+?)(\.git)?$/`. -/
def matchHttps (l : List Char) : Option (List Char × List Char) :=
  let rest? :=
    match stripLit "https://github.com/".data l with
    | some r => some r
    | none => stripLit "http://github.com/".data l
  match rest? with
  | none => none
  | some r =>
    match breakAtSlash r with
    | none => none
    | some (ow, rest) =>
      if ow = [] then none
      else
        match repoOfRest rest with
        | none => none
        | some repo => some (ow, repo)

/-- Pattern 2 of `parseGitHubUrl`:
`/^git@github\.com:([^\/]+)\/(.+?)(\.git)?$/`. -/
def matchSsh (l : List Char) : Option (List Char × List Char) :=
  match stripLit "git@github.com:".data l with
  | none => none
  | some r =>
    match breakAtSlash r with
    | none => none
    | some (ow, rest) =>
      if ow = [] then none
      else
        match repoOfRest rest with
        | none => none
        | some repo => some (ow, repo)

/-- The character class `[a-zA-Z0-9_-]` (shorthand owner). -/
def shOwnerChar (c : Char) : Bool :=
  ('a' ≤ c && c ≤ 'z') || ('A' ≤ c && c ≤ 'Z') || ('0' ≤ c && c ≤ '9') ||
  c == '_' || c == '-'

/-- The character class `[a-zA-Z0-9._-]` (shorthand repo, repo name rule). -/
def shRepoChar (c : Char) : Bool :=
  shOwnerChar c || c == '.'

/-- Pattern 3 of `parseGitHubUrl`: `/^([a-zA-Z0-9_-]+)\/([a-zA-Z0-9._-]+)$/`.
Neither class matches a slash, so the string splits at its only slash. -/
def matchShorthand (l : List Char) : Option (List Char × List Char) :=
  match breakAtSlash l with
  | none => none
  | some (ow, re) =>
    if ow ≠ [] ∧ re ≠ [] ∧ ow.all shOwnerChar ∧ re.all shRepoChar then some (ow, re)
    else none

/-- Build the returned record: `key = owner/repo`,
`url = https://github.com/owner/repo.git` (identical in all three branches). -/
def mkParsed (ow re : List Char) : ParsedGitHubUrl :=
  let o := ow.asString
  let r := re.asString
  { owner := o
    repo := r
    key := o ++ "/" ++ r
    url := "https://github.com/" ++ o ++ "/" ++ r ++ ".git" }

/-- `parseGitHubUrl` from `src/url-parser.ts`: trim, then try the three
patterns in order; `null` (here `none`) if none matches. -/
def parseGitHubUrl (input : String) : Option ParsedGitHubUrl :=
  let t := jsTrim input.data
  match matchHttps t with
  | some (ow, re) => some (mkParsed ow re)
  | none =>
    match matchSsh t with
    | some (ow, re) => some (mkParsed ow re)
    | none =>
      match matchShorthand t with
      | some (ow, re) => some (mkParsed ow re)
      | none => none

/-- The character class `[a-zA-Z0-9]`. -/
def alnumChar (c : Char) : Bool :=
  ('a' ≤ c && c ≤ 'z') || ('A' ≤ c && c ≤ 'Z') || ('0' ≤ c && c ≤ '9')

/-- The character class `[a-zA-Z0-9-]`. -/
def ownerMidChar (c : Char) : Bool :=
  alnumChar c || c == '-'

/-- Owner rule `/^[a-zA-Z0-9]([a-zA-Z0-9-]{0,37}[a-zA-Z0-9])?$/`: one
alphanumeric character, or 2–39 characters with alphanumeric endpoints and
alphanumeric-or-hyphen interior. -/
def validOwnerName (o : List Char) : Bool :=
  match o with
  | [] => false
  | c :: cs =>
    alnumChar c &&
      (cs.isEmpty ||
        (cs.length ≤ 38 && cs.dropLast.all ownerMidChar &&
          (match cs.getLast? with
           | some d => alnumChar d
           | none => true)))

/-- Repo rule `/^[a-zA-Z0-9._-]+$/`. -/
def validRepoName (r : List Char) : Bool :=
  !r.isEmpty && r.all shRepoChar

/-- `validateGitHubNames` from `src/url-parser.ts`. -/
def validateGitHubNames (owner repo : String) : Bool :=
  validOwnerName owner.data && validRepoName repo.data

example : (parseGitHubUrl "https://github.com/facebook/react").map (·.key) = some "facebook/react" := by decide
example : (parseGitHubUrl "https://github.com/facebook/react").map (·.url) =
    some "https://github.com/facebook/react.git" := by decide
example : (parseGitHubUrl "https://github.com/vercel/next.js.git").map (·.repo) = some "next.js" := by decide
example : (parseGitHubUrl "git@github.com:microsoft/typescript.git").map (·.key) =
    some "microsoft/typescript" := by decide
example : (parseGitHubUrl "octocat/Hello-World").map (·.key) = some "octocat/Hello-World" := by decide
example : parseGitHubUrl "invalid-url" = none := by decide
example : parseGitHubUrl "https://gitlab.com/owner/repo" = none := by decide
example : parseGitHubUrl "" = none := by decide
example : validateGitHubNames "facebook" "react" = true := by decide
example : validateGitHubNames "-invalid" "repo" = false := by decide
example : validateGitHubNames "owner" "" = false := by decide
example : validateGitHubNames "vercel" "next.js" = true := by decide

/-! ## metadata-manager.ts -/

/-- A cache entry record (`RepoMetadata` in `src/metadata-manager.ts`). -/
structure RepoMetadata where
  key : String
  url : String
  path : String
  clonedAt : Nat
  lastAccessed : Nat
  size : Option Nat
deriving DecidableEq, Repr

/-- State of one metadata file: absent, unreadable/not-an-array, or a list of
records.  `loadFromPath` reads the first two as the empty collection. -/
inductive FileState
  | missing
  | corrupt
  | ok (entries : List RepoMetadata)
deriving DecidableEq, Repr

/-- `MetadataManager.loadFromPath`: a missing file or a load error yields `[]`,
a parsed non-array yields `[]`, otherwise the stored array. -/
def loadFromPath : FileState → List RepoMetadata
  | .missing => []
  | .corrupt => []
  | .ok l => l

/-- On-disk state of one artifact path, as observed by `validateClone`:
absent; present without `.git` (also a partial clone); present with `.git`
but no ordinary file at the root; or a valid clone. -/
inductive ArtifactState
  | absent
  | noGit
  | gitEmpty
  | valid
deriving DecidableEq, Repr

/-- Errors surfaced by the manager and store. -/
inductive Err
  | invalidUrl (input : String)
  | invalidName (key : String)
  | gitErr
  | rmErr
  | saveErr
  | cloneFailed (key : String) (inner : Err)
deriving DecidableEq, Repr

/-- Whole-system state: the two metadata files (`projectFile = none` when the
manager was built without a project directory), the artifact filesystem, the
clock read by `Date.now()`, and a count of fetch-collaborator invocations. -/
structure Sys where
  globalFile : FileState
  projectFile : Option FileState
  fs : String → ArtifactState
  clock : Nat
  fetchCount : Nat

/-- Success oracles for the effectful collaborators: `git clone`, `rm -rf`,
and metadata file writes. -/
structure Env where
  cloneOk : Bool
  rmOk : Bool
  saveOk : Bool
deriving DecidableEq, Repr

/-- The all-success environment (every external collaborator functions). -/
def okEnv : Env := ⟨true, true, true⟩

/-- One `Map.set` step of the merge in `MetadataManager.load`: replace the
value at an existing key (keeping its insertion position) or append. -/
def setKey (l : List RepoMetadata) (r : RepoMetadata) : List RepoMetadata :=
  if l.any (fun x => x.key == r.key) then
    l.map (fun x => if x.key == r.key then r else x)
  else l ++ [r]

/-- The `Map`-based merge of `load`: insert all global entries, then all
project entries (project overrides global at equal keys), and read the values
in insertion order. -/
def mergeByKey (g p : List RepoMetadata) : List RepoMetadata :=
  (g ++ p).foldl setKey []

/-- `MetadataManager.load`: the global collection alone when no project path
is configured, otherwise the merge. -/
def load (st : Sys) : List RepoMetadata :=
  let g := loadFromPath st.globalFile
  match st.projectFile with
  | none => g
  | some pf => mergeByKey g (loadFromPath pf)

/-- `MetadataManager.save`: write the collection to the project file iff
`useProject` and a project path is configured, else to the global file.
A write failure (`saveToPath` rethrows) leaves the files unchanged. -/
def save (env : Env) (st : Sys) (l : List RepoMetadata) (useProject : Bool) :
    Sys × Option Err :=
  if env.saveOk then
    if useProject ∧ st.projectFile ≠ none then
      ({ st with projectFile := some (.ok l) }, none)
    else ({ st with globalFile := .ok l }, none)
  else (st, some .saveErr)

/-- `MetadataManager.findByKey`: first entry of the merged view with the key. -/
def findByKey (st : Sys) (key : String) : Option RepoMetadata :=
  (load st).find? (fun r => r.key == key)

/-- `Array.prototype.findIndex`-based replacement of `upsert`: replace the
first entry sharing the key, or append. -/
def upsertList (l : List RepoMetadata) (r : RepoMetadata) : List RepoMetadata :=
  match l with
  | [] => [r]
  | x :: xs => if x.key == r.key then r :: xs else x :: upsertList xs r

/-- `MetadataManager.upsert`: load the merged view, replace-or-append, save. -/
def upsert (env : Env) (st : Sys) (r : RepoMetadata) (useProject : Bool) :
    Sys × Option Err :=
  save env st (upsertList (load st) r) useProject

/-- `MetadataManager.remove`: load the merged view, drop the key, save. -/
def removeKey (env : Env) (st : Sys) (key : String) (useProject : Bool) :
    Sys × Option Err :=
  save env st ((load st).filter (fun r => !(r.key == key))) useProject

/-- `MetadataManager.getSortedByLRU`: `all.sort((a, b) => a.lastAccessed -
b.lastAccessed)`.  `Array.prototype.sort` is a stable ascending sort, and a
stable sort's output is uniquely determined (sorted, with ties in original
order), so it is embedded by a structural stable sort. -/
def getSortedByLRU (st : Sys) : List RepoMetadata :=
  List.insertionSort (fun a b => a.lastAccessed ≤ b.lastAccessed) (load st)

/-! ## clone-manager.ts -/

/-- Capacity, storage directory and fetch parameters
(`GitHubExplorerConfig` in `src/config.ts`). -/
structure GitHubExplorerConfig where
  maxClonedRepos : Nat
  cloneDirectory : String
  autoCleanupDays : Nat
  cloneDepth : Nat
  excludePatterns : List String

/-- Update the artifact state at one path. -/
def setFs (st : Sys) (p : String) (a : ArtifactState) : Sys :=
  { st with fs := fun q => if q = p then a else st.fs q }

/-- `rm -rf` at a path: its artifact becomes absent. -/
def rmPath (st : Sys) (p : String) : Sys := setFs st p .absent

/-- `CloneManager.validateClone`: directory exists, `.git` exists inside it,
and at least one ordinary file sits at the artifact root. -/
def validateClone (st : Sys) (path : String) : Bool :=
  match st.fs path with
  | .absent => false
  | .noGit => false
  | .gitEmpty => false
  | .valid => true

/-- `CloneManager.updateLastAccessed`: re-read the entry, set `lastAccessed`
to `Date.now()`, persist via `upsert` (default scope). -/
def updateLastAccessed (env : Env) (st : Sys) (key : String) : Sys × Option Err :=
  match findByKey st key with
  | none => (st, none)
  | some r =>
    let t := st.clock
    upsert env { st with clock := t + 1 } { r with lastAccessed := t } false

/-- `CloneManager.deleteRepo`: no-op when the key is absent; otherwise remove
the artifact (if present) and then the store record; any failure is rethrown
unchanged and stops the remaining steps. -/
def deleteRepo (env : Env) (st : Sys) (key : String) : Sys × Option Err :=
  match findByKey st key with
  | none => (st, none)
  | some r =>
    if st.fs r.path ≠ .absent then
      if env.rmOk then removeKey env (rmPath st r.path) key false
      else (st, some .rmErr)
    else removeKey env st key false

/-- The loop body of `cleanupLRU`: delete the listed keys in order, stopping
at (and propagating) the first error. -/
def deleteList (env : Env) (st : Sys) : List String → Sys × Option Err
  | [] => (st, none)
  | k :: ks =>
    match deleteRepo env st k with
    | (st', none) => deleteList env st' ks
    | (st', some e) => (st', some e)

/-- `CloneManager.cleanupLRU`: delete the first `min(count, length)` keys of
the LRU-sorted view (computed once, before any deletion). -/
def cleanupLRU (env : Env) (st : Sys) (count : Nat) : Sys × Option Err :=
  deleteList env st (((getSortedByLRU st).take count).map (fun r => r.key))

/-- `CloneManager.ensureCapacity`: when the current count is at or above the
maximum, evict `count - max + 1` least-recently-used entries. -/
def ensureCapacity (env : Env) (cfg : GitHubExplorerConfig) (st : Sys) :
    Sys × Option Err :=
  let n := (load st).length
  if cfg.maxClonedRepos ≤ n then cleanupLRU env st (n - cfg.maxClonedRepos + 1)
  else (st, none)

/-- Target path of a clone: `join(cloneDirectory, owner, repo)`. -/
def clonePath (cfg : GitHubExplorerConfig) (p : ParsedGitHubUrl) : String :=
  cfg.cloneDirectory ++ "/" ++ p.owner ++ "/" ++ p.repo

/-- The `catch` block of `cloneRepo`: remove any artifact left at the target
path, then fail with the wrapping `Failed to clone` error; if that removal
itself fails, its error propagates instead. -/
def cloneCatch (env : Env) (st : Sys) (key : String) (repoPath : String)
    (e : Err) : Sys × Except Err String :=
  if st.fs repoPath ≠ .absent then
    if env.rmOk then (rmPath st repoPath, .error (.cloneFailed key e))
    else (st, .error .rmErr)
  else (st, .error (.cloneFailed key e))

/-- Steps 5–8 of `cloneRepo` (after the cache-hit handling): enforce capacity,
ensure directories, `git clone`, record fresh metadata.  A successful fetch
leaves a valid artifact at the target path (the fetch collaborator succeeds
only if the target contains the version-control metadata and content); a
failed fetch leaves a partial artifact for the `catch` block to remove.
Directory creation only builds scaffolding and is not tracked. -/
def cloneFetchPhase (env : Env) (cfg : GitHubExplorerConfig) (st : Sys)
    (parsed : ParsedGitHubUrl) : Sys × Except Err String :=
  match ensureCapacity env cfg st with
  | (st₁, some e) => (st₁, .error e)
  | (st₁, none) =>
    let repoPath := clonePath cfg parsed
    if env.cloneOk then
      let st₂ := setFs { st₁ with fetchCount := st₁.fetchCount + 1 } repoPath .valid
      let t := st₂.clock
      let st₃ := { st₂ with clock := t + 1 }
      let md : RepoMetadata :=
        { key := parsed.key, url := parsed.url, path := repoPath,
          clonedAt := t, lastAccessed := t, size := none }
      match upsert env st₃ md false with
      | (st₄, none) => (st₄, .ok repoPath)
      | (st₄, some e) => cloneCatch env st₄ parsed.key repoPath e
    else
      let st₂ := setFs { st₁ with fetchCount := st₁.fetchCount + 1 } repoPath .noGit
      cloneCatch env st₂ parsed.key repoPath .gitErr

/-- `CloneManager.cloneRepo` (the public `acquire`): parse and validate the
reference, then return the cached path on a valid hit (refreshing recency),
delete a stale hit, and otherwise enforce capacity and fetch. -/
def cloneRepo (env : Env) (cfg : GitHubExplorerConfig) (st : Sys)
    (input : String) : Sys × Except Err String :=
  match parseGitHubUrl input with
  | none => (st, .error (.invalidUrl input))
  | some parsed =>
    if validateGitHubNames parsed.owner parsed.repo then
      match findByKey st parsed.key with
      | some existing =>
        if validateClone st existing.path then
          match updateLastAccessed env st parsed.key with
          | (st₁, none) => (st₁, .ok existing.path)
          | (st₁, some e) => (st₁, .error e)
        else
          match deleteRepo env st parsed.key with
          | (st₁, none) => cloneFetchPhase env cfg st₁ parsed
          | (st₁, some e) => (st₁, .error e)
      | none => cloneFetchPhase env cfg st parsed
    else (st, .error (.invalidName parsed.key))

/-- The state after an `acquire` call (dropping the returned value). -/
def runAcquire (env : Env) (cfg : GitHubExplorerConfig) (st : Sys)
    (input : String) : Sys :=
  (cloneRepo env cfg st input).1

/-- The state after a sequence of `acquire` calls. -/
def runAcquires (env : Env) (cfg : GitHubExplorerConfig) (st : Sys)
    (inputs : List String) : Sys :=
  inputs.foldl (runAcquire env cfg) st

/-! ## Derived notions used by the theorems -/

/-- The keys of a collection, in order. -/
def keysOf (l : List RepoMetadata) : List String := l.map (fun r => r.key)

/-- Number of entries carrying a given key. -/
def countKey (l : List RepoMetadata) (k : String) : Nat :=
  l.countP (fun r => r.key == k)

/-- What the project scope contributes to `load`. -/
def projContrib (st : Sys) : List RepoMetadata :=
  match st.projectFile with
  | none => []
  | some pf => loadFromPath pf

/-- The collection stored in the global-scope file. -/
def glob (st : Sys) : List RepoMetadata := loadFromPath st.globalFile

/-! ## List-level lemmas about the store primitives -/

theorem mem_keysOf {l : List RepoMetadata} {k : String} :
    k ∈ keysOf l ↔ ∃ r ∈ l, r.key = k := by
  simp [keysOf, eq_comm]

theorem find?_key_eq_none {l : List RepoMetadata} {k : String} :
    l.find? (fun r => r.key == k) = none ↔ k ∉ keysOf l := by
  rw [List.find?_eq_none]
  constructor
  · intro h hk
    obtain ⟨r, hr, hrk⟩ := mem_keysOf.mp hk
    exact h r hr (by simp [hrk])
  · intro h r hr hp
    simp only [beq_iff_eq] at hp
    exact h (mem_keysOf.mpr ⟨r, hr, hp⟩)

theorem find?_key_mem {l : List RepoMetadata} {k : String} {r : RepoMetadata}
    (h : l.find? (fun x => x.key == k) = some r) : r ∈ l ∧ r.key = k := by
  have hm := List.mem_of_find?_eq_some h
  have hp := List.find?_some h
  simp at hp
  exact ⟨hm, hp⟩

theorem setKey_of_not_mem {l : List RepoMetadata} {r : RepoMetadata}
    (h : r.key ∉ keysOf l) : setKey l r = l ++ [r] := by
  have hc : l.any (fun x => x.key == r.key) = false := by
    rw [List.any_eq_false]
    intro x hx
    simp only [beq_iff_eq]
    intro hk
    exact h (mem_keysOf.mpr ⟨x, hx, hk⟩)
  simp [setKey, hc]

theorem keysOf_setKey_of_mem {l : List RepoMetadata} {r : RepoMetadata}
    (h : r.key ∈ keysOf l) : keysOf (setKey l r) = keysOf l := by
  obtain ⟨y, hy, hyk⟩ := mem_keysOf.mp h
  have hc : l.any (fun x => x.key == r.key) = true := by
    rw [List.any_eq_true]
    exact ⟨y, hy, by simp [hyk]⟩
  simp only [setKey, hc, if_true]
  unfold keysOf
  rw [List.map_map]
  apply List.map_congr_left
  intro x _
  simp only [Function.comp_apply]
  by_cases hx : (x.key == r.key) = true
  · simp only [if_pos hx]
    simp only [beq_iff_eq] at hx
    exact hx.symm
  · simp only [if_neg hx]

theorem mem_keysOf_setKey {l : List RepoMetadata} {r : RepoMetadata} {k : String} :
    k ∈ keysOf (setKey l r) ↔ k ∈ keysOf l ∨ k = r.key := by
  by_cases h : r.key ∈ keysOf l
  · rw [keysOf_setKey_of_mem h]
    constructor
    · exact Or.inl
    · rintro (hk | rfl)
      · exact hk
      · exact h
  · rw [setKey_of_not_mem h]
    simp [keysOf]

theorem nodup_keysOf_setKey {l : List RepoMetadata} {r : RepoMetadata}
    (h : (keysOf l).Nodup) : (keysOf (setKey l r)).Nodup := by
  by_cases hm : r.key ∈ keysOf l
  · rw [keysOf_setKey_of_mem hm]; exact h
  · rw [setKey_of_not_mem hm]
    simp only [keysOf, List.map_append, List.map_cons, List.map_nil] at h ⊢
    rw [List.nodup_append]
    refine ⟨h, List.nodup_singleton _, ?_⟩
    intro a ha hb
    simp only [List.mem_singleton] at hb
    subst hb
    exact hm (by simpa [keysOf] using ha)

theorem nodup_keysOf_foldl_setKey (l : List RepoMetadata) :
    ∀ acc : List RepoMetadata, (keysOf acc).Nodup → (keysOf (l.foldl setKey acc)).Nodup := by
  induction l with
  | nil => intro acc h; exact h
  | cons x xs ih =>
    intro acc h
    exact ih (setKey acc x) (nodup_keysOf_setKey h)

theorem nodup_keysOf_mergeByKey (g p : List RepoMetadata) :
    (keysOf (mergeByKey g p)).Nodup := by
  unfold mergeByKey
  exact nodup_keysOf_foldl_setKey _ [] (by simp [keysOf])

theorem mem_keysOf_foldl_setKey (l : List RepoMetadata) :
    ∀ acc : List RepoMetadata, ∀ k : String,
      (k ∈ keysOf (l.foldl setKey acc) ↔ k ∈ keysOf acc ∨ k ∈ keysOf l) := by
  induction l with
  | nil => intro acc k; simp [keysOf]
  | cons x xs ih =>
    intro acc k
    rw [List.foldl_cons, ih (setKey acc x) k, mem_keysOf_setKey]
    constructor
    · rintro ((h | h) | h)
      · exact Or.inl h
      · exact Or.inr (mem_keysOf.mpr ⟨x, by simp, h.symm⟩)
      · obtain ⟨y, hy, hyk⟩ := mem_keysOf.mp h
        exact Or.inr (mem_keysOf.mpr ⟨y, by simp [hy], hyk⟩)
    · rintro (h | h)
      · exact Or.inl (Or.inl h)
      · obtain ⟨y, hy, hyk⟩ := mem_keysOf.mp h
        rcases List.mem_cons.mp hy with rfl | hy'
        · exact Or.inl (Or.inr hyk.symm)
        · exact Or.inr (mem_keysOf.mpr ⟨y, hy', hyk⟩)

theorem mem_keysOf_mergeByKey {g p : List RepoMetadata} {k : String} :
    k ∈ keysOf (mergeByKey g p) ↔ k ∈ keysOf g ∨ k ∈ keysOf p := by
  unfold mergeByKey
  rw [mem_keysOf_foldl_setKey]
  simp [keysOf]

theorem foldl_setKey_of_nodup (l : List RepoMetadata) :
    ∀ acc : List RepoMetadata, (keysOf (acc ++ l)).Nodup → l.foldl setKey acc = acc ++ l := by
  induction l with
  | nil => intro acc _; simp
  | cons x xs ih =>
    intro acc h
    have hx : x.key ∉ keysOf acc := by
      intro hm
      simp only [keysOf, List.map_append, List.nodup_append] at h
      exact h.2.2 (by simpa [keysOf] using hm) (by simp)
    rw [List.foldl_cons, setKey_of_not_mem hx, ih (acc ++ [x]) (by simpa using h)]
    simp

theorem mergeByKey_nil_right {g : List RepoMetadata} (h : (keysOf g).Nodup) :
    mergeByKey g [] = g := by
  unfold mergeByKey
  rw [List.append_nil]
  simpa using foldl_setKey_of_nodup g [] (by simpa [keysOf] using h)

theorem upsertList_of_not_mem {r : RepoMetadata} :
    ∀ l : List RepoMetadata, r.key ∉ keysOf l → upsertList l r = l ++ [r] := by
  intro l
  induction l with
  | nil => intro _; rfl
  | cons x xs ih =>
    intro h
    have hx : ¬(x.key == r.key) = true := by
      simp only [beq_iff_eq]
      intro hk
      exact h (mem_keysOf.mpr ⟨x, by simp, hk⟩)
    have hxs : r.key ∉ keysOf xs := by
      intro hm
      obtain ⟨y, hy, hyk⟩ := mem_keysOf.mp hm
      exact h (mem_keysOf.mpr ⟨y, by simp [hy], hyk⟩)
    simp only [upsertList, if_neg hx, ih hxs, List.cons_append]

theorem keysOf_upsertList_of_mem {r : RepoMetadata} :
    ∀ l : List RepoMetadata, r.key ∈ keysOf l → keysOf (upsertList l r) = keysOf l := by
  intro l
  induction l with
  | nil => intro h; simp [keysOf] at h
  | cons x xs ih =>
    intro h
    by_cases hx : (x.key == r.key) = true
    · simp only [upsertList, if_pos hx]
      simp only [beq_iff_eq] at hx
      simp [keysOf, hx]
    · simp only [upsertList, if_neg hx]
      have hm : r.key ∈ keysOf xs := by
        obtain ⟨y, hy, hyk⟩ := mem_keysOf.mp h
        rcases List.mem_cons.mp hy with rfl | hy'
        · exact absurd (by simp [hyk]) hx
        · exact mem_keysOf.mpr ⟨y, hy', hyk⟩
      show keysOf (x :: upsertList xs r) = keysOf (x :: xs)
      simp only [keysOf, List.map_cons] at ih ⊢
      rw [ih hm]

theorem length_upsertList_of_mem {l : List RepoMetadata} {r : RepoMetadata}
    (h : r.key ∈ keysOf l) : (upsertList l r).length = l.length := by
  have h1 : (keysOf (upsertList l r)).length = (keysOf l).length := by
    rw [keysOf_upsertList_of_mem l h]
  simpa [keysOf] using h1

theorem find?_upsertList_self {r : RepoMetadata} :
    ∀ l : List RepoMetadata, (upsertList l r).find? (fun x => x.key == r.key) = some r := by
  intro l
  induction l with
  | nil => simp [upsertList, List.find?]
  | cons x xs ih =>
    by_cases hx : x.key = r.key
    · simp [upsertList, hx, List.find?]
    · have hxf : (x.key == r.key) = false := by simp [hx]
      simp only [upsertList, List.find?, hxf, Bool.false_eq_true, if_false]
      exact ih

theorem filter_ne_key_eq_self {l : List RepoMetadata} {k : String}
    (h : k ∉ keysOf l) : l.filter (fun r => !(r.key == k)) = l := by
  rw [List.filter_eq_self]
  intro r hr
  simp only [Bool.not_eq_true', beq_eq_false_iff_ne, ne_eq]
  intro hk
  exact h (mem_keysOf.mpr ⟨r, hr, hk⟩)

theorem countKey_filter_ne (l : List RepoMetadata) (k : String) :
    countKey (l.filter (fun r => !(r.key == k))) k = 0 := by
  rw [countKey, List.countP_eq_zero]
  intro r hr
  simpa using List.of_mem_filter hr

theorem keysOf_filter_sublist (l : List RepoMetadata) (p : RepoMetadata → Bool) :
    (keysOf (l.filter p)).Sublist (keysOf l) := by
  show (List.map (fun r => r.key) (l.filter p)).Sublist (List.map (fun r => r.key) l)
  exact List.Sublist.map (fun r => r.key) (List.filter_sublist l)

theorem nodup_keysOf_filter {l : List RepoMetadata} (p : RepoMetadata → Bool)
    (h : (keysOf l).Nodup) : (keysOf (l.filter p)).Nodup :=
  (keysOf_filter_sublist l p).nodup h

theorem countKey_of_nodup (k : String) :
    ∀ l : List RepoMetadata, (keysOf l).Nodup →
      countKey l k = if k ∈ keysOf l then 1 else 0 := by
  intro l
  induction l with
  | nil => intro _; simp [countKey, keysOf]
  | cons x xs ih =>
    intro hn
    simp only [keysOf, List.map_cons, List.nodup_cons] at hn
    have hxs := ih hn.2
    by_cases hx : x.key = k
    · have hnot : k ∉ keysOf xs := by rw [← hx]; exact hn.1
      simp only [countKey, List.countP_cons] at *
      rw [hxs, if_neg hnot]
      have hmem : k ∈ keysOf (x :: xs) := mem_keysOf.mpr ⟨x, by simp, hx⟩
      rw [if_pos hmem]
      simp [hx]
    · simp only [countKey, List.countP_cons] at *
      have hiff : k ∈ keysOf (x :: xs) ↔ k ∈ keysOf xs := by
        constructor
        · intro hm
          rcases mem_keysOf.mp hm with ⟨y, hy, hyk⟩
          rcases List.mem_cons.mp hy with rfl | hy'
          · exact absurd hyk hx
          · exact mem_keysOf.mpr ⟨y, hy', hyk⟩
        · intro hm
          rcases mem_keysOf.mp hm with ⟨y, hy, hyk⟩
          exact mem_keysOf.mpr ⟨y, by simp [hy], hyk⟩
      rw [hxs]
      by_cases hm : k ∈ keysOf xs
      · rw [if_pos hm, if_pos (hiff.mpr hm)]
        simp [hx]
      · rw [if_neg hm, if_neg (fun h => hm (hiff.mp h))]
        simp [hx]

theorem length_filter_ne_of_mem (k : String) :
    ∀ l : List RepoMetadata, (keysOf l).Nodup → k ∈ keysOf l →
      (l.filter (fun r => !(r.key == k))).length = l.length - 1 := by
  intro l hn hm
  have h1 := List.length_eq_countP_add_countP (fun r => r.key == k) l
  have h2 : l.countP (fun r => r.key == k) = 1 := by
    have h3 := countKey_of_nodup k l hn
    rw [if_pos hm] at h3
    exact h3
  have h4 : l.countP (fun r => decide ¬(r.key == k) = true) =
      (l.filter (fun r => !(r.key == k))).length := by
    rw [List.countP_eq_length_filter]
    congr 1
    apply List.filter_congr
    intro r _
    cases hb : (r.key == k) <;> simp [hb]
  omega

theorem length_filter_not_contains :
    ∀ ks : List String, ∀ l : List RepoMetadata,
      ks.Nodup → (∀ k ∈ ks, k ∈ keysOf l) → (keysOf l).Nodup →
      (l.filter (fun r => !(ks.contains r.key))).length = l.length - ks.length := by
  intro ks
  induction ks with
  | nil =>
    intro l _ _ _
    simp
  | cons k ks ih =>
    intro l hkn hmem hn
    have hsplit : l.filter (fun r => !((k :: ks).contains r.key)) =
        (l.filter (fun r => !(r.key == k))).filter (fun r => !(ks.contains r.key)) := by
      rw [List.filter_filter]
      apply List.filter_congr
      intro r _
      rw [List.contains_cons]
      cases h1 : (r.key == k) <;> cases h2 : ks.contains r.key <;> simp [h1, h2]
    have hkn' := (List.nodup_cons.mp hkn).2
    have hknot := (List.nodup_cons.mp hkn).1
    have hl1 : (l.filter (fun r => !(r.key == k))).length = l.length - 1 :=
      length_filter_ne_of_mem k l hn (hmem k (by simp))
    have hn' : (keysOf (l.filter (fun r => !(r.key == k)))).Nodup :=
      nodup_keysOf_filter _ hn
    have hmem' : ∀ k' ∈ ks, k' ∈ keysOf (l.filter (fun r => !(r.key == k))) := by
      intro k' hk'
      obtain ⟨y, hy, hyk⟩ := mem_keysOf.mp (hmem k' (by simp [hk']))
      refine mem_keysOf.mpr ⟨y, List.mem_filter.mpr ⟨hy, ?_⟩, hyk⟩
      simp only [Bool.not_eq_true', beq_eq_false_iff_ne, ne_eq, hyk]
      intro he
      exact hknot (he ▸ hk')
    have hlen : 1 ≤ l.length := by
      obtain ⟨y, hy, _⟩ := mem_keysOf.mp (hmem k (by simp))
      exact List.length_pos.mpr (List.ne_nil_of_mem hy)
    rw [hsplit, ih _ hkn' hmem' hn', hl1]
    simp only [List.length_cons]
    omega

/-! ## Frame lemmas: every manager mutation persists at the default scope -/

theorem save_false_eq {env : Env} {st : Sys} {l : List RepoMetadata} :
    save env st l false =
      if env.saveOk then ({ st with globalFile := .ok l }, none)
      else (st, some .saveErr) := by
  by_cases h : env.saveOk = true <;> simp [save, h]

theorem save_false_frame (env : Env) (st : Sys) (l : List RepoMetadata) :
    (save env st l false).1.projectFile = st.projectFile ∧
    (save env st l false).1.fs = st.fs ∧
    (save env st l false).1.clock = st.clock ∧
    (save env st l false).1.fetchCount = st.fetchCount := by
  rw [save_false_eq]
  by_cases h : env.saveOk = true <;> simp [h]

theorem upsert_projectFile (env : Env) (st : Sys) (r : RepoMetadata) :
    (upsert env st r false).1.projectFile = st.projectFile := by
  unfold upsert
  exact (save_false_frame env st _).1

theorem removeKey_projectFile (env : Env) (st : Sys) (k : String) :
    (removeKey env st k false).1.projectFile = st.projectFile := by
  unfold removeKey
  exact (save_false_frame env st _).1

theorem updateLastAccessed_projectFile (env : Env) (st : Sys) (k : String) :
    (updateLastAccessed env st k).1.projectFile = st.projectFile := by
  cases h : findByKey st k with
  | none => simp [updateLastAccessed, h]
  | some r =>
    simp only [updateLastAccessed, h]
    exact upsert_projectFile env { st with clock := st.clock + 1 } _

theorem deleteRepo_projectFile (env : Env) (st : Sys) (k : String) :
    (deleteRepo env st k).1.projectFile = st.projectFile := by
  cases h : findByKey st k with
  | none => simp [deleteRepo, h]
  | some r =>
    simp only [deleteRepo, h]
    by_cases hfs : st.fs r.path ≠ .absent
    · rw [if_pos hfs]
      by_cases hrm : env.rmOk = true
      · rw [if_pos hrm]
        exact removeKey_projectFile env (rmPath st r.path) k
      · rw [if_neg hrm]
    · rw [if_neg hfs]
      exact removeKey_projectFile env st k

theorem deleteList_projectFile (env : Env) :
    ∀ ks : List String, ∀ st : Sys,
      (deleteList env st ks).1.projectFile = st.projectFile := by
  intro ks
  induction ks with
  | nil => intro st; rfl
  | cons k ks ih =>
    intro st
    have hd := deleteRepo_projectFile env st k
    cases h : deleteRepo env st k with
    | mk st' e =>
      rw [h] at hd
      cases e with
      | none =>
        simp only [deleteList, h]
        rw [ih st', hd]
      | some e' =>
        simp only [deleteList, h]
        exact hd

theorem cleanupLRU_projectFile (env : Env) (st : Sys) (count : Nat) :
    (cleanupLRU env st count).1.projectFile = st.projectFile := by
  unfold cleanupLRU
  exact deleteList_projectFile env _ st

theorem ensureCapacity_projectFile (env : Env) (cfg : GitHubExplorerConfig) (st : Sys) :
    (ensureCapacity env cfg st).1.projectFile = st.projectFile := by
  unfold ensureCapacity
  by_cases h : cfg.maxClonedRepos ≤ (load st).length
  · rw [if_pos h]
    exact cleanupLRU_projectFile env st _
  · rw [if_neg h]

theorem cloneCatch_projectFile (env : Env) (st : Sys) (k p : String) (e : Err) :
    (cloneCatch env st k p e).1.projectFile = st.projectFile := by
  unfold cloneCatch
  split
  · split
    · rfl
    · rfl
  · rfl

theorem cloneFetchPhase_projectFile (env : Env) (cfg : GitHubExplorerConfig)
    (st : Sys) (parsed : ParsedGitHubUrl) :
    (cloneFetchPhase env cfg st parsed).1.projectFile = st.projectFile := by
  have he := ensureCapacity_projectFile env cfg st
  unfold cloneFetchPhase
  split
  next st₁ e heq =>
    rw [heq] at he
    exact he
  next st₁ heq =>
    rw [heq] at he
    split
    · dsimp only
      split
      next st₄ heq₂ =>
        have hu := congrArg (fun q => q.1.projectFile) heq₂
        dsimp only at hu
        rw [upsert_projectFile] at hu
        simp only [setFs] at hu
        exact hu.symm.trans he
      next st₄ e₄ heq₂ =>
        have hu := congrArg (fun q => q.1.projectFile) heq₂
        dsimp only at hu
        rw [upsert_projectFile] at hu
        simp only [setFs] at hu
        rw [cloneCatch_projectFile]
        exact hu.symm.trans he
    · dsimp only
      rw [cloneCatch_projectFile]
      simp only [setFs]
      exact he

theorem cloneRepo_projectFile (env : Env) (cfg : GitHubExplorerConfig)
    (st : Sys) (input : String) :
    (cloneRepo env cfg st input).1.projectFile = st.projectFile := by
  unfold cloneRepo
  split
  · rfl
  next parsed hp =>
    split
    · split
      next existing hf =>
        split
        · split
          next st₁ heq =>
            have hu := updateLastAccessed_projectFile env st parsed.key
            rw [heq] at hu
            exact hu
          next st₁ e heq =>
            have hu := updateLastAccessed_projectFile env st parsed.key
            rw [heq] at hu
            exact hu
        · split
          next st₁ heq =>
            have hd := deleteRepo_projectFile env st parsed.key
            rw [heq] at hd
            rw [cloneFetchPhase_projectFile]
            exact hd
          next st₁ e heq =>
            have hd := deleteRepo_projectFile env st parsed.key
            rw [heq] at hd
            exact hd
      next hf => exact cloneFetchPhase_projectFile env cfg st parsed
    · rfl

theorem runAcquires_projectFile (env : Env) (cfg : GitHubExplorerConfig) :
    ∀ inputs : List String, ∀ st : Sys,
      (runAcquires env cfg st inputs).projectFile = st.projectFile := by
  intro inputs
  induction inputs with
  | nil => intro st; rfl
  | cons i is ih =>
    intro st
    show (runAcquires env cfg (runAcquire env cfg st i) is).projectFile = st.projectFile
    rw [ih (runAcquire env cfg st i)]
    exact cloneRepo_projectFile env cfg st i

/-! ## Load-level characterization of the operations -/

theorem glob_rmPath (st : Sys) (p : String) : glob (rmPath st p) = glob st := rfl

theorem load_rmPath (st : Sys) (p : String) : load (rmPath st p) = load st := rfl

theorem projContrib_eq_of_projectFile {st st' : Sys}
    (h : st'.projectFile = st.projectFile) : projContrib st' = projContrib st := by
  unfold projContrib
  rw [h]

theorem load_eq_glob {st : Sys} (hp : projContrib st = [])
    (hn : (keysOf (glob st)).Nodup) : load st = glob st := by
  unfold load
  unfold projContrib at hp
  unfold glob at *
  cases hpf : st.projectFile with
  | none => simp
  | some pf =>
    rw [hpf] at hp
    dsimp only at hp
    dsimp only
    rw [hp]
    exact mergeByKey_nil_right hn

theorem upsert_ok_eq {env : Env} (hs : env.saveOk = true) (st : Sys) (r : RepoMetadata) :
    upsert env st r false =
      ({ st with globalFile := .ok (upsertList (load st) r) }, none) := by
  unfold upsert
  rw [save_false_eq, if_pos hs]

theorem removeKey_ok_eq {env : Env} (hs : env.saveOk = true) (st : Sys) (k : String) :
    removeKey env st k false =
      ({ st with globalFile := .ok ((load st).filter (fun r => !(r.key == k))) }, none) := by
  unfold removeKey
  rw [save_false_eq, if_pos hs]

theorem deleteRepo_ok {env : Env} (hs : env.saveOk = true) (hr : env.rmOk = true)
    (st : Sys) (k : String) (hp : projContrib st = [])
    (hn : (keysOf (glob st)).Nodup) :
    (deleteRepo env st k).2 = none ∧
    glob (deleteRepo env st k).1 = (glob st).filter (fun r => !(r.key == k)) := by
  have hl := load_eq_glob hp hn
  cases hf : findByKey st k with
  | none =>
    have hnk : k ∉ keysOf (load st) := by
      unfold findByKey at hf
      exact find?_key_eq_none.mp hf
    rw [hl] at hnk
    constructor
    · simp [deleteRepo, hf]
    · simp only [deleteRepo, hf]
      exact (filter_ne_key_eq_self hnk).symm
  | some r =>
    simp only [deleteRepo, hf]
    by_cases hfs : st.fs r.path ≠ .absent
    · rw [if_pos hfs, if_pos hr, removeKey_ok_eq hs]
      refine ⟨rfl, ?_⟩
      show (load (rmPath st r.path)).filter _ = _
      rw [load_rmPath, hl]
    · rw [if_neg hfs, removeKey_ok_eq hs]
      refine ⟨rfl, ?_⟩
      show (load st).filter _ = _
      rw [hl]

theorem deleteList_ok {env : Env} (hs : env.saveOk = true) (hr : env.rmOk = true) :
    ∀ ks : List String, ∀ st : Sys,
      projContrib st = [] → (keysOf (glob st)).Nodup →
      (deleteList env st ks).2 = none ∧
      glob (deleteList env st ks).1 =
        (glob st).filter (fun r => !(ks.contains r.key)) := by
  intro ks
  induction ks with
  | nil =>
    intro st hp hn
    refine ⟨rfl, ?_⟩
    show glob st = _
    symm
    rw [List.filter_eq_self]
    intro r _
    rfl
  | cons k ks ih =>
    intro st hp hn
    have hd := deleteRepo_ok hs hr st k hp hn
    have hpf := deleteRepo_projectFile env st k
    cases hq : deleteRepo env st k with
    | mk st' e =>
      rw [hq] at hd hpf
      cases e with
      | some e' => exact absurd hd.1 (by simp)
      | none =>
        have hp' : projContrib st' = [] := by
          rw [projContrib_eq_of_projectFile hpf, hp]
        have hg' : glob st' = (glob st).filter (fun r => !(r.key == k)) := hd.2
        have hn' : (keysOf (glob st')).Nodup := by
          rw [hg']
          exact nodup_keysOf_filter _ hn
        have hrec := ih st' hp' hn'
        refine ⟨?_, ?_⟩
        · simp only [deleteList, hq]
          exact hrec.1
        · simp only [deleteList, hq]
          rw [hrec.2, hg', List.filter_filter]
          apply List.filter_congr
          intro r _
          rw [List.contains_cons]
          cases h1 : (r.key == k) <;> cases h2 : ks.contains r.key <;> simp [h1, h2]

theorem getSortedByLRU_perm (st : Sys) : (getSortedByLRU st).Perm (load st) :=
  List.perm_insertionSort _ _

theorem nodup_keysOf_getSortedByLRU {st : Sys} (h : (keysOf (load st)).Nodup) :
    (keysOf (getSortedByLRU st)).Nodup := by
  have hperm : (keysOf (load st)).Perm (keysOf (getSortedByLRU st)) := by
    show (List.map _ (load st)).Perm (List.map _ (getSortedByLRU st))
    exact ((getSortedByLRU_perm st).map (fun r => r.key)).symm
  exact hperm.nodup h

theorem length_getSortedByLRU (st : Sys) :
    (getSortedByLRU st).length = (load st).length :=
  (getSortedByLRU_perm st).length_eq

theorem nodup_keysOf_upsertList {l : List RepoMetadata} {r : RepoMetadata}
    (h : (keysOf l).Nodup) : (keysOf (upsertList l r)).Nodup := by
  by_cases hm : r.key ∈ keysOf l
  · rw [keysOf_upsertList_of_mem l hm]
    exact h
  · rw [upsertList_of_not_mem l hm]
    simp only [keysOf, List.map_append, List.map_cons, List.map_nil]
    rw [List.nodup_append]
    refine ⟨h, List.nodup_singleton _, ?_⟩
    intro a ha hb
    simp only [List.mem_singleton] at hb
    subst hb
    exact hm (by simpa [keysOf] using ha)

theorem length_upsertList_le (l : List RepoMetadata) (r : RepoMetadata) :
    (upsertList l r).length ≤ l.length + 1 := by
  by_cases hm : r.key ∈ keysOf l
  · rw [length_upsertList_of_mem hm]
    omega
  · rw [upsertList_of_not_mem l hm]
    simp

theorem ensureCapacity_basic {env : Env} (hs : env.saveOk = true)
    (hr : env.rmOk = true) (cfg : GitHubExplorerConfig) (st : Sys)
    (hp : projContrib st = []) (hn : (keysOf (glob st)).Nodup) :
    (ensureCapacity env cfg st).2 = none ∧
    projContrib (ensureCapacity env cfg st).1 = [] ∧
    (keysOf (glob (ensureCapacity env cfg st).1)).Nodup := by
  unfold ensureCapacity
  by_cases hc : cfg.maxClonedRepos ≤ (load st).length
  · rw [if_pos hc]
    unfold cleanupLRU
    have hd := deleteList_ok hs hr
      (((getSortedByLRU st).take ((load st).length - cfg.maxClonedRepos + 1)).map
        (fun r => r.key)) st hp hn
    have hpf := deleteList_projectFile env
      (((getSortedByLRU st).take ((load st).length - cfg.maxClonedRepos + 1)).map
        (fun r => r.key)) st
    refine ⟨hd.1, ?_, ?_⟩
    · rw [projContrib_eq_of_projectFile hpf, hp]
    · rw [hd.2]
      exact nodup_keysOf_filter _ hn
  · rw [if_neg hc]
    exact ⟨rfl, hp, hn⟩

theorem ensureCapacity_length {env : Env} (hs : env.saveOk = true)
    (hr : env.rmOk = true) (cfg : GitHubExplorerConfig) (st : Sys)
    (hp : projContrib st = []) (hn : (keysOf (glob st)).Nodup)
    (hmax : 1 ≤ cfg.maxClonedRepos) :
    (glob (ensureCapacity env cfg st).1).length =
      if cfg.maxClonedRepos ≤ (glob st).length then cfg.maxClonedRepos - 1
      else (glob st).length := by
  have hl := load_eq_glob hp hn
  unfold ensureCapacity
  by_cases hc : cfg.maxClonedRepos ≤ (load st).length
  · rw [if_pos hc]
    unfold cleanupLRU
    have hd := deleteList_ok hs hr
      (((getSortedByLRU st).take ((load st).length - cfg.maxClonedRepos + 1)).map
        (fun r => r.key)) st hp hn
    rw [hd.2]
    set cnt := (load st).length - cfg.maxClonedRepos + 1 with hcnt
    have hks : ((getSortedByLRU st).take cnt).map (fun r => r.key) =
        keysOf ((getSortedByLRU st).take cnt) := rfl
    have hkn : (keysOf ((getSortedByLRU st).take cnt)).Nodup := by
      have hsub : ((getSortedByLRU st).take cnt).Sublist (getSortedByLRU st) :=
        List.take_sublist _ _
      have : (keysOf ((getSortedByLRU st).take cnt)).Sublist
          (keysOf (getSortedByLRU st)) := by
        show (List.map _ _).Sublist (List.map _ _)
        exact hsub.map _
      exact this.nodup (nodup_keysOf_getSortedByLRU (by rw [hl]; exact hn))
    have hmem : ∀ k ∈ keysOf ((getSortedByLRU st).take cnt), k ∈ keysOf (glob st) := by
      intro k hk
      obtain ⟨y, hy, hyk⟩ := mem_keysOf.mp hk
      have hy' : y ∈ getSortedByLRU st := (List.take_sublist _ _).mem hy
      have hy'' : y ∈ load st := (getSortedByLRU_perm st).mem_iff.mp hy'
      rw [hl] at hy''
      exact mem_keysOf.mpr ⟨y, hy'', hyk⟩
    have hlen : (keysOf ((getSortedByLRU st).take cnt)).length =
        min cnt (glob st).length := by
      show (List.map _ _).length = _
      rw [List.length_map, List.length_take, length_getSortedByLRU, hl]
    rw [hks, length_filter_not_contains _ _ hkn hmem hn, hlen]
    rw [hl] at hc
    rw [if_pos hc]
    rw [hl] at hcnt
    omega
  · rw [if_neg hc]
    rw [hl] at hc
    rw [if_neg hc]

/-- The metadata record written after a successful fetch at clock value `t`
(`createdAt = lastAccessedAt = now`). -/
def freshMeta (cfg : GitHubExplorerConfig) (parsed : ParsedGitHubUrl) (t : Nat) :
    RepoMetadata :=
  { key := parsed.key, url := parsed.url, path := clonePath cfg parsed,
    clonedAt := t, lastAccessed := t, size := none }

theorem cloneFetchPhase_ok {env : Env} (hs : env.saveOk = true)
    (hr : env.rmOk = true) (hc : env.cloneOk = true)
    (cfg : GitHubExplorerConfig) (st : Sys) (parsed : ParsedGitHubUrl)
    (hp : projContrib st = []) (hn : (keysOf (glob st)).Nodup) :
    ∃ st₁ : Sys,
      ensureCapacity env cfg st = (st₁, none) ∧
      projContrib st₁ = [] ∧
      (keysOf (glob st₁)).Nodup ∧
      (cloneFetchPhase env cfg st parsed).2 = .ok (clonePath cfg parsed) ∧
      glob (cloneFetchPhase env cfg st parsed).1 =
        upsertList (glob st₁) (freshMeta cfg parsed st₁.clock) ∧
      (cloneFetchPhase env cfg st parsed).1.projectFile = st₁.projectFile ∧
      (cloneFetchPhase env cfg st parsed).1.fs =
        (fun q => if q = clonePath cfg parsed then ArtifactState.valid else st₁.fs q) ∧
      (cloneFetchPhase env cfg st parsed).1.clock = st₁.clock + 1 ∧
      (cloneFetchPhase env cfg st parsed).1.fetchCount = st₁.fetchCount + 1 := by
  obtain ⟨h1, h2, h3⟩ := ensureCapacity_basic hs hr cfg st hp hn
  cases hq : ensureCapacity env cfg st with
  | mk st₁ e =>
    rw [hq] at h1 h2 h3
    cases e with
    | some e' => exact absurd h1 (by simp)
    | none =>
      refine ⟨st₁, rfl, h2, h3, ?_⟩
      unfold cloneFetchPhase
      rw [hq]
      dsimp only
      rw [if_pos hc]
      rw [upsert_ok_eq hs]
      dsimp only
      refine ⟨rfl, ?_, rfl, rfl, rfl, rfl⟩
      show upsertList (load st₁) (freshMeta cfg parsed st₁.clock) =
        upsertList (glob st₁) (freshMeta cfg parsed st₁.clock)
      rw [load_eq_glob h2 h3]

theorem updateLastAccessed_ok {env : Env} (hs : env.saveOk = true) (st : Sys)
    (k : String) (r : RepoMetadata) (hf : findByKey st k = some r) :
    updateLastAccessed env st k =
      ({ st with
          clock := st.clock + 1
          globalFile := .ok (upsertList (load st) { r with lastAccessed := st.clock }) },
        none) := by
  unfold updateLastAccessed
  rw [hf]
  dsimp only
  rw [upsert_ok_eq hs]
  rfl

theorem cloneFetchPhase_inv {env : Env} (hs : env.saveOk = true)
    (hr : env.rmOk = true) (hc : env.cloneOk = true)
    (cfg : GitHubExplorerConfig) (st : Sys) (parsed : ParsedGitHubUrl)
    (hp : projContrib st = []) (hn : (keysOf (glob st)).Nodup)
    (hmax : 1 ≤ cfg.maxClonedRepos) :
    projContrib (cloneFetchPhase env cfg st parsed).1 = [] ∧
    (keysOf (glob (cloneFetchPhase env cfg st parsed).1)).Nodup ∧
    (glob (cloneFetchPhase env cfg st parsed).1).length ≤ cfg.maxClonedRepos := by
  obtain ⟨st₁, hq, h2, h3, _, hg, hpf, _, _, _⟩ :=
    cloneFetchPhase_ok hs hr hc cfg st parsed hp hn
  have hlen := ensureCapacity_length hs hr cfg st hp hn hmax
  rw [hq] at hlen
  refine ⟨?_, ?_, ?_⟩
  · rw [projContrib_eq_of_projectFile hpf, h2]
  · rw [hg]
    exact nodup_keysOf_upsertList h3
  · rw [hg]
    have hle := length_upsertList_le (glob st₁) (freshMeta cfg parsed st₁.clock)
    by_cases hcase : cfg.maxClonedRepos ≤ (glob st).length
    · rw [if_pos hcase] at hlen
      rw [hlen] at hle
      omega
    · rw [if_neg hcase] at hlen
      rw [hlen] at hle
      omega

theorem cloneRepo_inv {env : Env} (hs : env.saveOk = true) (hr : env.rmOk = true)
    (hc : env.cloneOk = true) (cfg : GitHubExplorerConfig)
    (hmax : 1 ≤ cfg.maxClonedRepos) (st : Sys) (input : String)
    (hp : projContrib st = []) (hn : (keysOf (glob st)).Nodup)
    (hcount : (glob st).length ≤ cfg.maxClonedRepos) :
    projContrib (cloneRepo env cfg st input).1 = [] ∧
    (keysOf (glob (cloneRepo env cfg st input).1)).Nodup ∧
    (glob (cloneRepo env cfg st input).1).length ≤ cfg.maxClonedRepos := by
  unfold cloneRepo
  split
  · exact ⟨hp, hn, hcount⟩
  next parsed hparse =>
    split
    · split
      next existing hf =>
        split
        · rw [updateLastAccessed_ok hs st parsed.key existing hf]
          dsimp only
          have hmem : existing.key ∈ keysOf (load st) := by
            obtain ⟨hin, _⟩ := find?_key_mem hf
            exact mem_keysOf.mpr ⟨existing, hin, rfl⟩
          have hl := load_eq_glob hp hn
          refine ⟨hp, ?_, ?_⟩
          · show (keysOf (upsertList (load st) _)).Nodup
            rw [hl]
            exact nodup_keysOf_upsertList hn
          · show (upsertList (load st) { existing with lastAccessed := st.clock }).length ≤ _
            have hmem' : ({ existing with lastAccessed := st.clock } : RepoMetadata).key ∈
                keysOf (load st) := hmem
            rw [length_upsertList_of_mem hmem', hl]
            exact hcount
        · have hd := deleteRepo_ok hs hr st parsed.key hp hn
          have hdp := deleteRepo_projectFile env st parsed.key
          cases hq : deleteRepo env st parsed.key with
          | mk st₁ e =>
            rw [hq] at hd hdp
            cases e with
            | some e' => exact absurd hd.1 (by simp)
            | none =>
              have hp₁ : projContrib st₁ = [] := by
                rw [projContrib_eq_of_projectFile hdp, hp]
              have hn₁ : (keysOf (glob st₁)).Nodup := by
                rw [hd.2]
                exact nodup_keysOf_filter _ hn
              exact cloneFetchPhase_inv hs hr hc cfg st₁ parsed hp₁ hn₁ hmax
      next hf => exact cloneFetchPhase_inv hs hr hc cfg st parsed hp hn hmax
    · exact ⟨hp, hn, hcount⟩

/-! ## Claim C1 -/

deriving instance DecidableEq for Except

theorem okEnv_cloneOk : okEnv.cloneOk = true := rfl

theorem okEnv_rmOk : okEnv.rmOk = true := rfl

theorem okEnv_saveOk : okEnv.saveOk = true := rfl

/-- The empty store (both files absent, no artifacts). -/
def stEmptyCap1 : Sys :=
  { globalFile := .missing, projectFile := none, fs := fun _ => .absent,
    clock := 0, fetchCount := 0 }

/-- A small configuration with capacity 1. -/
def cfgCap1 : GitHubExplorerConfig :=
  { maxClonedRepos := 1, cloneDirectory := "/r", autoCleanupDays := 7,
    cloneDepth := 1, excludePatterns := [] }

/-- An entry for key `o/a`, as the project-scope store could hold it. -/
def entOA : RepoMetadata :=
  { key := "o/a", url := "https://github.com/o/a.git", path := "/r/o/a",
    clonedAt := 0, lastAccessed := 0, size := none }

/-- A store whose single (project-scope) entry is within capacity 1. -/
def stProj : Sys :=
  { globalFile := .ok [], projectFile := some (.ok [entOA]),
    fs := fun p => if p = "/r/o/a" then .valid else .absent,
    clock := 5, fetchCount := 0 }

/-- C1, counterexample: starting from a store with one project-scope entry and
capacity 1 (so the entry count is at the maximum), a successful `cloneRepo`
for a new key leaves the merged store with 2 entries — the eviction removed
the LRU entry from the global file only, and the project file immediately
re-contributes it on the next load.  The claim's capacity invariant fails. -/
theorem capacity_invariant_counterexample :
    (load stProj).length ≤ cfgCap1.maxClonedRepos ∧
    (cloneRepo okEnv cfgCap1 stProj "o/b").2 = .ok "/r/o/b" ∧
    cfgCap1.maxClonedRepos < (load (cloneRepo okEnv cfgCap1 stProj "o/b").1).length := by
  decide

/-- C1 (amended): provided the project scope contributes no entries (no project
store configured, or its collection empty) and the global collection has
pairwise-distinct keys, then (a) after any sequence of `cloneRepo` calls under
functioning collaborators the merged entry count never exceeds
`maxClonedRepos`, and (b) whenever the pre-fetch count is at or above the
maximum, capacity enforcement succeeds and evicts exactly
`count - maxClonedRepos + 1` entries before the fetch, leaving
`maxClonedRepos - 1` entries. -/
theorem capacity_invariant_acquire (cfg : GitHubExplorerConfig) (st : Sys)
    (hmax : 1 ≤ cfg.maxClonedRepos) (hp : projContrib st = [])
    (hn : (keysOf (glob st)).Nodup)
    (hcount : (load st).length ≤ cfg.maxClonedRepos) :
    (∀ inputs : List String,
      (load (runAcquires okEnv cfg st inputs)).length ≤ cfg.maxClonedRepos) ∧
    (cfg.maxClonedRepos ≤ (load st).length →
      (ensureCapacity okEnv cfg st).2 = none ∧
      (load st).length - (load (ensureCapacity okEnv cfg st).1).length =
        (load st).length - cfg.maxClonedRepos + 1 ∧
      (load (ensureCapacity okEnv cfg st).1).length = cfg.maxClonedRepos - 1) := by
  have hl := load_eq_glob hp hn
  rw [hl] at hcount
  have main : ∀ inputs : List String, ∀ s : Sys,
      projContrib s = [] → (keysOf (glob s)).Nodup →
      (glob s).length ≤ cfg.maxClonedRepos →
      projContrib (runAcquires okEnv cfg s inputs) = [] ∧
      (keysOf (glob (runAcquires okEnv cfg s inputs))).Nodup ∧
      (glob (runAcquires okEnv cfg s inputs)).length ≤ cfg.maxClonedRepos := by
    intro inputs
    induction inputs with
    | nil => exact fun s h1 h2 h3 => ⟨h1, h2, h3⟩
    | cons i is ih =>
      intro s h1 h2 h3
      obtain ⟨a, b, c⟩ := cloneRepo_inv okEnv_saveOk okEnv_rmOk okEnv_cloneOk cfg hmax s i h1 h2 h3
      exact ih _ a b c
  constructor
  · intro inputs
    obtain ⟨a, b, c⟩ := main inputs st hp hn hcount
    rw [load_eq_glob a b]
    exact c
  · intro hover
    rw [hl] at hover
    obtain ⟨h1, h2, h3⟩ := ensureCapacity_basic okEnv_saveOk okEnv_rmOk cfg st hp hn
    have hlen := ensureCapacity_length okEnv_saveOk okEnv_rmOk cfg st hp hn hmax
    rw [if_pos hover] at hlen
    have hl' := load_eq_glob h2 h3
    refine ⟨h1, ?_, ?_⟩
    · rw [hl, hl', hlen]
      omega
    · rw [hl', hlen]

/-- Witness for C1 (amended): an empty store with capacity 1 satisfies the
hypotheses, and a concrete three-acquire run stays within capacity. -/
theorem capacity_invariant_acquire_witness :
    (1 ≤ cfgCap1.maxClonedRepos ∧
      projContrib stEmptyCap1 = [] ∧
      (keysOf (glob stEmptyCap1)).Nodup ∧
      (load stEmptyCap1).length ≤ cfgCap1.maxClonedRepos) ∧
    (load (runAcquires okEnv cfgCap1 stEmptyCap1 ["o/a", "o/b", "o/c"])).length ≤
      cfgCap1.maxClonedRepos :=
  ⟨⟨by decide, by decide, by decide, by decide⟩,
    (capacity_invariant_acquire cfgCap1 stEmptyCap1 (by decide) (by decide)
      (by decide) (by decide)).1 ["o/a", "o/b", "o/c"]⟩

/-! ## Claim C2 -/

/-- The exact result of `cloneRepo` on a valid cache hit: refresh
`lastAccessedAt` via `upsert` and return the cached path. -/
theorem cloneRepo_hit (cfg : GitHubExplorerConfig) (st : Sys) (input : String)
    (parsed : ParsedGitHubUrl) (r : RepoMetadata)
    (hparse : parseGitHubUrl input = some parsed)
    (hv : validateGitHubNames parsed.owner parsed.repo = true)
    (hf : findByKey st parsed.key = some r)
    (hval : validateClone st r.path = true) :
    cloneRepo okEnv cfg st input =
      ({ st with
          clock := st.clock + 1
          globalFile := .ok (upsertList (load st) { r with lastAccessed := st.clock }) },
        .ok r.path) := by
  unfold cloneRepo
  rw [hparse]
  dsimp only
  rw [if_pos hv, hf]
  dsimp only
  rw [if_pos hval]
  rw [updateLastAccessed_ok okEnv_saveOk st parsed.key r hf]

/-- After a successful `cloneRepo` (with no project-scope entries), the store
holds a valid entry for the key whose path is the returned one. -/
theorem cloneRepo_ok_post {cfg : GitHubExplorerConfig} {st st₁ : Sys}
    {input p : String} (hp : projContrib st = [])
    (hn : (keysOf (glob st)).Nodup)
    (h : cloneRepo okEnv cfg st input = (st₁, .ok p)) :
    ∃ parsed r,
      parseGitHubUrl input = some parsed ∧
      validateGitHubNames parsed.owner parsed.repo = true ∧
      projContrib st₁ = [] ∧
      (keysOf (glob st₁)).Nodup ∧
      findByKey st₁ parsed.key = some r ∧
      r.path = p ∧
      validateClone st₁ r.path = true := by
  have hload := load_eq_glob hp hn
  unfold cloneRepo at h
  split at h
  · simp at h
  next parsed hparse =>
    split at h
    case isFalse => simp at h
    case isTrue hv =>
      refine ⟨parsed, ?_⟩
      split at h
      next existing hf =>
        split at h
        case isTrue hval =>
          rw [updateLastAccessed_ok okEnv_saveOk st parsed.key existing hf] at h
          dsimp only at h
          rw [Prod.mk.injEq] at h
          obtain ⟨hst, hres⟩ := h
          have hpp : existing.path = p := by
            injection hres
          have hkey : existing.key = parsed.key := (find?_key_mem hf).2
          refine ⟨{ existing with lastAccessed := st.clock }, hparse, hv, ?_, ?_, ?_, hpp, ?_⟩
          · rw [← hst]
            exact hp
          · rw [← hst]
            show (keysOf (upsertList (load st) _)).Nodup
            rw [hload]
            exact nodup_keysOf_upsertList hn
          · have hp₁ : projContrib st₁ = [] := by
              rw [← hst]; exact hp
            have hg₁ : glob st₁ =
                upsertList (load st) { existing with lastAccessed := st.clock } := by
              rw [← hst]
              rfl
            have hn₁ : (keysOf (glob st₁)).Nodup := by
              rw [hg₁, hload]
              exact nodup_keysOf_upsertList hn
            show (load st₁).find? (fun x => x.key == parsed.key) = _
            rw [load_eq_glob hp₁ hn₁, hg₁]
            have hkey2 : ({ existing with lastAccessed := st.clock } : RepoMetadata).key =
                parsed.key := hkey
            rw [← hkey2]
            exact find?_upsertList_self (load st)
          · rw [← hst]
            show validateClone st existing.path = true
            exact hval
        case isFalse hval =>
          have hd := deleteRepo_ok okEnv_saveOk okEnv_rmOk st parsed.key hp hn
          have hdp := deleteRepo_projectFile okEnv st parsed.key
          cases hq : deleteRepo okEnv st parsed.key with
          | mk st' e =>
            rw [hq] at h hd hdp
            cases e with
            | some e' => simp at h
            | none =>
              dsimp only at h
              have hp' : projContrib st' = [] := by
                rw [projContrib_eq_of_projectFile hdp, hp]
              have hn' : (keysOf (glob st')).Nodup := by
                rw [hd.2]
                exact nodup_keysOf_filter _ hn
              obtain ⟨se, hse, hse1, hse2, hres, hg, hpf, hfs, hclock, hfetch⟩ :=
                cloneFetchPhase_ok okEnv_saveOk okEnv_rmOk okEnv_cloneOk cfg st' parsed hp' hn'
              have hst : (cloneFetchPhase okEnv cfg st' parsed).1 = st₁ :=
                congrArg Prod.fst h
              have hpv : p = clonePath cfg parsed := by
                have := congrArg Prod.snd h
                dsimp only at this
                rw [hres] at this
                injection this.symm
              rw [hst] at hg hpf hfs
              refine ⟨freshMeta cfg parsed se.clock, hparse, hv, ?_, ?_, ?_, ?_, ?_⟩
              · rw [projContrib_eq_of_projectFile hpf, hse1]
              · rw [hg]
                exact nodup_keysOf_upsertList hse2
              · have hload₁ : load st₁ = glob st₁ := by
                  apply load_eq_glob
                  · rw [projContrib_eq_of_projectFile hpf, hse1]
                  · rw [hg]
                    exact nodup_keysOf_upsertList hse2
                show (load st₁).find? (fun x => x.key == parsed.key) = _
                rw [hload₁, hg]
                have hkeyF : (freshMeta cfg parsed se.clock).key = parsed.key := rfl
                rw [← hkeyF]
                exact find?_upsertList_self (glob se)
              · show (freshMeta cfg parsed se.clock).path = p
                rw [hpv]
                rfl
              · show validateClone st₁ (freshMeta cfg parsed se.clock).path = true
                unfold validateClone
                rw [hfs]
                dsimp only [freshMeta]
                rw [if_pos rfl]
      next hf =>
        obtain ⟨se, hse, hse1, hse2, hres, hg, hpf, hfs, hclock, hfetch⟩ :=
          cloneFetchPhase_ok okEnv_saveOk okEnv_rmOk okEnv_cloneOk cfg st parsed hp hn
        have hst : (cloneFetchPhase okEnv cfg st parsed).1 = st₁ :=
          congrArg Prod.fst h
        have hpv : p = clonePath cfg parsed := by
          have := congrArg Prod.snd h
          dsimp only at this
          rw [hres] at this
          injection this.symm
        rw [hst] at hg hpf hfs
        refine ⟨freshMeta cfg parsed se.clock, hparse, hv, ?_, ?_, ?_, ?_, ?_⟩
        · rw [projContrib_eq_of_projectFile hpf, hse1]
        · rw [hg]
          exact nodup_keysOf_upsertList hse2
        · have hload₁ : load st₁ = glob st₁ := by
            apply load_eq_glob
            · rw [projContrib_eq_of_projectFile hpf, hse1]
            · rw [hg]
              exact nodup_keysOf_upsertList hse2
          show (load st₁).find? (fun x => x.key == parsed.key) = _
          rw [hload₁, hg]
          have hkeyF : (freshMeta cfg parsed se.clock).key = parsed.key := rfl
          rw [← hkeyF]
          exact find?_upsertList_self (glob se)
        · show (freshMeta cfg parsed se.clock).path = p
          rw [hpv]
          rfl
        · show validateClone st₁ (freshMeta cfg parsed se.clock).path = true
          unfold validateClone
          rw [hfs]
          dsimp only [freshMeta]
          rw [if_pos rfl]

/-- A configuration with capacity 5. -/
def cfgCap5 : GitHubExplorerConfig :=
  { maxClonedRepos := 5, cloneDirectory := "/r", autoCleanupDays := 7,
    cloneDepth := 1, excludePatterns := [] }

/-- A project-scope entry for `o/r` whose artifact is gone. -/
def entOR : RepoMetadata :=
  { key := "o/r", url := "https://github.com/o/r.git", path := "/p",
    clonedAt := 0, lastAccessed := 0, size := none }

/-- A store whose only entry for `o/r` lives in the project-scope file and
points at an absent artifact. -/
def stShadow : Sys :=
  { globalFile := .ok [], projectFile := some (.ok [entOR]),
    fs := fun _ => .absent, clock := 3, fetchCount := 0 }

/-- C2, counterexample: with a project-scope entry whose artifact is invalid,
two successive `cloneRepo` calls for the same reference both succeed with the
same path and with no intervening eviction, yet the second call invokes the
external fetch again — the first call's `upsert` wrote the fresh entry to the
global scope only, so the stale project-scope entry shadows it at the next
lookup and forces a re-fetch. -/
theorem acquire_idempotent_counterexample :
    (cloneRepo okEnv cfgCap5 stShadow "o/r").2 = .ok "/r/o/r" ∧
    (cloneRepo okEnv cfgCap5 (cloneRepo okEnv cfgCap5 stShadow "o/r").1 "o/r").2 =
      .ok "/r/o/r" ∧
    (cloneRepo okEnv cfgCap5 stShadow "o/r").1.fetchCount = 1 ∧
    (cloneRepo okEnv cfgCap5 (cloneRepo okEnv cfgCap5 stShadow "o/r").1 "o/r").1.fetchCount
      = 2 := by
  decide

/-- C2 (amended): provided the project scope contributes no entries and the
global keys are distinct, a second `cloneRepo` with the same reference right
after a successful one returns the same path, performs no fetch, leaves the
filesystem untouched, and only refreshes the entry's `lastAccessed` in the
store. -/
theorem acquire_idempotent (cfg : GitHubExplorerConfig) (st st₁ : Sys)
    (input p : String) (hp : projContrib st = [])
    (hn : (keysOf (glob st)).Nodup)
    (h : cloneRepo okEnv cfg st input = (st₁, .ok p)) :
    ∃ st₂ parsed r,
      parseGitHubUrl input = some parsed ∧
      findByKey st₁ parsed.key = some r ∧
      r.path = p ∧
      cloneRepo okEnv cfg st₁ input = (st₂, .ok p) ∧
      st₂.fetchCount = st₁.fetchCount ∧
      st₂.fs = st₁.fs ∧
      st₂.projectFile = st₁.projectFile ∧
      load st₂ = upsertList (load st₁) { r with lastAccessed := st₁.clock } := by
  obtain ⟨parsed, r, hparse, hv, hp₁, hn₁, hf₁, hpp, hval₁⟩ := cloneRepo_ok_post hp hn h
  have hhit := cloneRepo_hit cfg st₁ input parsed r hparse hv hf₁ hval₁
  have hl₁ : load st₁ = glob st₁ := load_eq_glob hp₁ hn₁
  have hn₂ : (keysOf (upsertList (load st₁) { r with lastAccessed := st₁.clock })).Nodup := by
    rw [hl₁]
    exact nodup_keysOf_upsertList hn₁
  refine ⟨{ st₁ with
      clock := st₁.clock + 1
      globalFile := .ok (upsertList (load st₁) { r with lastAccessed := st₁.clock }) },
    parsed, r, hparse, hf₁, hpp, ?_, rfl, rfl, rfl, ?_⟩
  · rw [hhit, hpp]
  · exact load_eq_glob hp₁ hn₂

/-- Witness for C2 (amended): a concrete first acquire on the empty store,
followed by the idempotent second call. -/
theorem acquire_idempotent_witness :
    ∃ st₂ parsed r,
      parseGitHubUrl "o/a" = some parsed ∧
      findByKey (cloneRepo okEnv cfgCap1 stEmptyCap1 "o/a").1 parsed.key = some r ∧
      r.path = "/r/o/a" ∧
      cloneRepo okEnv cfgCap1 (cloneRepo okEnv cfgCap1 stEmptyCap1 "o/a").1 "o/a" =
        (st₂, .ok "/r/o/a") ∧
      st₂.fetchCount = (cloneRepo okEnv cfgCap1 stEmptyCap1 "o/a").1.fetchCount ∧
      st₂.fs = (cloneRepo okEnv cfgCap1 stEmptyCap1 "o/a").1.fs ∧
      st₂.projectFile = (cloneRepo okEnv cfgCap1 stEmptyCap1 "o/a").1.projectFile ∧
      load st₂ = upsertList (load (cloneRepo okEnv cfgCap1 stEmptyCap1 "o/a").1)
        { r with lastAccessed := (cloneRepo okEnv cfgCap1 stEmptyCap1 "o/a").1.clock } :=
  acquire_idempotent cfgCap1 stEmptyCap1 _ "o/a" "/r/o/a" (by decide) (by decide) rfl

/-! ## Claim C3 -/

instance : IsTotal RepoMetadata (fun a b => a.lastAccessed ≤ b.lastAccessed) :=
  ⟨fun a b => Nat.le_total a.lastAccessed b.lastAccessed⟩

instance : IsTrans RepoMetadata (fun a b => a.lastAccessed ≤ b.lastAccessed) :=
  ⟨fun _ _ _ => Nat.le_trans⟩

/-- `cleanupLRU` under functioning collaborators and a project scope that
contributes nothing: it succeeds and the store afterwards is the original
collection with the keys of the first `min n count` sorted entries removed. -/
theorem cleanupLRU_ok (st : Sys) (n : Nat) (hp : projContrib st = [])
    (hn : (keysOf (glob st)).Nodup) :
    (cleanupLRU okEnv st n).2 = none ∧
    load (cleanupLRU okEnv st n).1 =
      (load st).filter
        (fun r => !((keysOf ((getSortedByLRU st).take n)).contains r.key)) ∧
    (load (cleanupLRU okEnv st n).1).length =
      (load st).length - min n (load st).length := by
  have hl := load_eq_glob hp hn
  unfold cleanupLRU
  have hd := deleteList_ok okEnv_saveOk okEnv_rmOk
    (((getSortedByLRU st).take n).map (fun r => r.key)) st hp hn
  have hpf := deleteList_projectFile okEnv
    (((getSortedByLRU st).take n).map (fun r => r.key)) st
  have hks : ((getSortedByLRU st).take n).map (fun r => r.key) =
      keysOf ((getSortedByLRU st).take n) := rfl
  have hkn : (keysOf ((getSortedByLRU st).take n)).Nodup := by
    have hsub : ((getSortedByLRU st).take n).Sublist (getSortedByLRU st) :=
      List.take_sublist _ _
    have hmap : (keysOf ((getSortedByLRU st).take n)).Sublist
        (keysOf (getSortedByLRU st)) := by
      show (List.map _ _).Sublist (List.map _ _)
      exact hsub.map _
    exact hmap.nodup (nodup_keysOf_getSortedByLRU (by rw [hl]; exact hn))
  have hmem : ∀ k ∈ keysOf ((getSortedByLRU st).take n), k ∈ keysOf (glob st) := by
    intro k hk
    obtain ⟨y, hy, hyk⟩ := mem_keysOf.mp hk
    have hy' : y ∈ getSortedByLRU st := (List.take_sublist _ _).mem hy
    have hy'' : y ∈ load st := (getSortedByLRU_perm st).mem_iff.mp hy'
    rw [hl] at hy''
    exact mem_keysOf.mpr ⟨y, hy'', hyk⟩
  have hlenks : (keysOf ((getSortedByLRU st).take n)).length =
      min n (glob st).length := by
    show (List.map _ _).length = _
    rw [List.length_map, List.length_take, length_getSortedByLRU, hl]
  have hp' : projContrib (deleteList okEnv st
      (((getSortedByLRU st).take n).map (fun r => r.key))).1 = [] := by
    rw [projContrib_eq_of_projectFile hpf, hp]
  have hn' : (keysOf (glob (deleteList okEnv st
      (((getSortedByLRU st).take n).map (fun r => r.key))).1)).Nodup := by
    rw [hd.2]
    exact nodup_keysOf_filter _ hn
  have hload' := load_eq_glob hp' hn'
  refine ⟨hd.1, ?_, ?_⟩
  · rw [hload', hd.2, hks, hl]
  · rw [hload', hd.2, hks, length_filter_not_contains _ _ hkn hmem hn, hlenks, hl]

/-- A configuration with capacity 2. -/
def cfgCap2 : GitHubExplorerConfig :=
  { maxClonedRepos := 2, cloneDirectory := "/r", autoCleanupDays := 7,
    cloneDepth := 1, excludePatterns := [] }

/-- The state after acquiring `o/A`, `o/B`, `o/C` in order on an empty store
with capacity 2. -/
def stABC : Sys := runAcquires okEnv cfgCap2 stEmptyCap1 ["o/A", "o/B", "o/C"]

/-- C3, counterexample: with the sole (LRU-oldest) entry living in the
project-scope file, `cleanupLRU 1` succeeds but removes nothing from the
merged store — `metadata.remove` writes only the global file — although the
claim promises that exactly `min(1, 1) = 1` oldest entry is removed. -/
theorem evictLRU_counterexample :
    (load stProj).length = 1 ∧
    (cleanupLRU okEnv stProj 1).2 = none ∧
    (load (cleanupLRU okEnv stProj 1).1).length = 1 ∧
    findByKey (cleanupLRU okEnv stProj 1).1 "o/a" = some entOA := by
  decide

/-- C3 (amended): provided the project scope contributes no entries and the
global keys are distinct, `cleanupLRU n` succeeds and removes exactly the
`min n count` entries with the smallest `lastAccessed` (ties broken stably:
the LRU view is a stable ascending sort of the collection), via the shared
deletion step; and in the concrete capacity-2 scenario, after acquiring A, B,
then C, A is absent while B and C are present. -/
theorem evictLRU_removes_oldest :
    (∀ st : Sys, ∀ n : Nat, projContrib st = [] → (keysOf (glob st)).Nodup →
      (cleanupLRU okEnv st n).2 = none ∧
      (getSortedByLRU st).Perm (load st) ∧
      (getSortedByLRU st).Sorted (fun a b => a.lastAccessed ≤ b.lastAccessed) ∧
      (∀ e ∈ (getSortedByLRU st).take n, ∀ f ∈ (getSortedByLRU st).drop n,
        e.lastAccessed ≤ f.lastAccessed) ∧
      load (cleanupLRU okEnv st n).1 =
        (load st).filter
          (fun r => !((keysOf ((getSortedByLRU st).take n)).contains r.key)) ∧
      (load (cleanupLRU okEnv st n).1).length =
        (load st).length - min n (load st).length) ∧
    (findByKey stABC "o/A" = none ∧
      (findByKey stABC "o/B").isSome = true ∧
      (findByKey stABC "o/C").isSome = true ∧
      (load stABC).length = 2) := by
  constructor
  · intro st n hp hn
    obtain ⟨h1, h2, h3⟩ := cleanupLRU_ok st n hp hn
    have hsorted : (getSortedByLRU st).Sorted
        (fun a b => a.lastAccessed ≤ b.lastAccessed) :=
      List.sorted_insertionSort _ (load st)
    refine ⟨h1, getSortedByLRU_perm st, hsorted, ?_, h2, h3⟩
    intro e he f hf
    exact hsorted.rel_of_mem_take_of_mem_drop he hf
  · refine ⟨?_, ?_, ?_, ?_⟩ <;> decide

/-- A store with a single global-scope entry for `o/a` and a valid artifact. -/
def stGlobA : Sys :=
  { globalFile := .ok [entOA], projectFile := none,
    fs := fun p => if p = "/r/o/a" then .valid else .absent,
    clock := 9, fetchCount := 0 }

/-- Witness for C3 (amended): the general LRU-removal count on a concrete
one-entry global store. -/
theorem evictLRU_removes_oldest_witness :
    projContrib stGlobA = [] ∧ (keysOf (glob stGlobA)).Nodup ∧
    (load (cleanupLRU okEnv stGlobA 1).1).length =
      (load stGlobA).length - min 1 (load stGlobA).length :=
  ⟨by decide, by decide,
    (evictLRU_removes_oldest.1 stGlobA 1 (by decide) (by decide)).2.2.2.2.2⟩

/-! ## Claim C4 -/

/-- An environment where metadata writes fail. -/
def envSaveFail : Env := ⟨true, true, false⟩

/-- An environment where `rm -rf` fails. -/
def envRmFail : Env := ⟨true, false, true⟩

theorem removeKey_eq (env : Env) (st : Sys) (k : String) :
    removeKey env st k false =
      if env.saveOk then
        ({ st with globalFile := .ok ((load st).filter (fun r => !(r.key == k))) },
          none)
      else (st, some .saveErr) := by
  unfold removeKey
  rw [save_false_eq]

/-- C4, counterexample: with an existing entry and a functioning filesystem
but a failing metadata write, `deleteRepo` removes the artifact, then the
store write throws — the deletion fails, the record is left in the store, and
its on-disk artifact is absent: exactly the orphaned-record state the claim
says a failed deletion never produces. -/
theorem deletion_step_counterexample :
    (deleteRepo envSaveFail stGlobA "o/a").2 = some Err.saveErr ∧
    (deleteRepo envSaveFail stGlobA "o/a").1.fs "/r/o/a" = ArtifactState.absent ∧
    findByKey (deleteRepo envSaveFail stGlobA "o/a").1 "o/a" = some entOA := by
  decide

/-- C4 (amended): `deleteRepo` is a no-op when no entry exists; on any failure
the store record for the key is not removed; when the store write succeeds, a
failure can only come from artifact removal and leaves the state entirely
unchanged (record and artifact both present); on success with an existing
entry the artifact is removed (before the record, per the operation's order)
and the record is dropped from the saved global collection.  The no-orphan
guarantee holds only when the store write succeeds: if the record removal
fails after the artifact was already removed, the record remains while the
artifact is absent. -/
theorem deleteRepo_deletion_step (env : Env) (st : Sys) (k : String) :
    (findByKey st k = none → deleteRepo env st k = (st, none)) ∧
    (∀ e, (deleteRepo env st k).2 = some e →
      findByKey (deleteRepo env st k).1 k = findByKey st k) ∧
    (env.saveOk = true → ∀ e, (deleteRepo env st k).2 = some e →
      (deleteRepo env st k).1 = st ∧ e = Err.rmErr) ∧
    (∀ r, findByKey st k = some r → (deleteRepo env st k).2 = none →
      (deleteRepo env st k).1.fs r.path = ArtifactState.absent ∧
      glob (deleteRepo env st k).1 = (load st).filter (fun x => !(x.key == k))) := by
  cases hf : findByKey st k with
  | none =>
    refine ⟨fun _ => by simp [deleteRepo, hf], ?_, ?_, ?_⟩
    · intro e he
      simp [deleteRepo, hf] at he
    · intro _ e he
      simp [deleteRepo, hf] at he
    · intro r hr
      exact absurd hr (by simp)
  | some r =>
    have hdel : deleteRepo env st k =
        if st.fs r.path ≠ .absent then
          if env.rmOk then removeKey env (rmPath st r.path) k false
          else (st, some .rmErr)
        else removeKey env st k false := by
      simp [deleteRepo, hf]
    refine ⟨fun hc => absurd hc (by simp [hf]), ?_, ?_, ?_⟩
    · intro e he
      rw [hdel] at he ⊢
      by_cases hfs : st.fs r.path ≠ .absent
      · rw [if_pos hfs] at he ⊢
        by_cases hrm : env.rmOk = true
        · rw [if_pos hrm] at he ⊢
          rw [removeKey_eq] at he ⊢
          by_cases hsv : env.saveOk = true
          · rw [if_pos hsv] at he
            simp at he
          · rw [if_neg hsv] at he ⊢
            exact hf
        · rw [if_neg hrm] at he ⊢
          exact hf
      · rw [if_neg hfs] at he ⊢
        rw [removeKey_eq] at he ⊢
        by_cases hsv : env.saveOk = true
        · rw [if_pos hsv] at he
          simp at he
        · rw [if_neg hsv] at he ⊢
          exact hf
    · intro hsv e he
      rw [hdel] at he ⊢
      by_cases hfs : st.fs r.path ≠ .absent
      · rw [if_pos hfs] at he ⊢
        by_cases hrm : env.rmOk = true
        · rw [if_pos hrm] at he ⊢
          rw [removeKey_eq, if_pos hsv] at he
          simp at he
        · rw [if_neg hrm] at he ⊢
          refine ⟨rfl, ?_⟩
          have h2 : some Err.rmErr = some e := he
          injection h2 with h3
          exact h3.symm
      · rw [if_neg hfs] at he ⊢
        rw [removeKey_eq, if_pos hsv] at he
        simp at he
    · intro r' hr' hnone
      have hrr : r' = r := by
        injection hr' with h
        exact h.symm
      subst hrr
      rw [hdel] at hnone ⊢
      by_cases hfs : st.fs r'.path ≠ .absent
      · rw [if_pos hfs] at hnone ⊢
        by_cases hrm : env.rmOk = true
        · rw [if_pos hrm] at hnone ⊢
          rw [removeKey_eq] at hnone ⊢
          by_cases hsv : env.saveOk = true
          · rw [if_pos hsv] at hnone ⊢
            constructor
            · show (if r'.path = r'.path then ArtifactState.absent else st.fs r'.path) = _
              rw [if_pos rfl]
            · rfl
          · rw [if_neg hsv] at hnone
            simp at hnone
        · rw [if_neg hrm] at hnone
          simp at hnone
      · rw [if_neg hfs] at hnone ⊢
        rw [removeKey_eq] at hnone ⊢
        by_cases hsv : env.saveOk = true
        · rw [if_pos hsv] at hnone ⊢
          constructor
          · show st.fs r'.path = ArtifactState.absent
            by_cases h' : st.fs r'.path = ArtifactState.absent
            · exact h'
            · exact absurd h' (by simpa using hfs)
          · rfl
        · rw [if_neg hsv] at hnone
          simp at hnone

/-- Witness for C4 (amended): with a failing `rm -rf` and a working store
write, the deletion fails and leaves the state entirely unchanged. -/
theorem deleteRepo_deletion_step_witness :
    (deleteRepo envRmFail stGlobA "o/a").2 = some Err.rmErr ∧
    (deleteRepo envRmFail stGlobA "o/a").1 = stGlobA :=
  ⟨by decide,
    ((deleteRepo_deletion_step envRmFail stGlobA "o/a").2.2.1 rfl Err.rmErr
      (by decide)).1⟩

/-! ## Claim C5 -/

/-- The environment in which the external fetch collaborator fails while the
filesystem and store collaborators function. -/
def envCloneFail : Env := ⟨false, true, true⟩

theorem countKey_filter_le (l : List RepoMetadata) (p : RepoMetadata → Bool)
    (k : String) : countKey (l.filter p) k ≤ countKey l k := by
  unfold countKey
  rw [List.countP_eq_length_filter, List.countP_eq_length_filter]
  exact ((List.filter_sublist l).filter _).length_le

theorem countKey_le_of_nodup_subset {l l' : List RepoMetadata}
    (hn' : (keysOf l').Nodup) (hn : (keysOf l).Nodup)
    (hsub : ∀ x ∈ keysOf l', x ∈ keysOf l) (k : String) :
    countKey l' k ≤ countKey l k := by
  rw [countKey_of_nodup k l' hn', countKey_of_nodup k l hn]
  by_cases h : k ∈ keysOf l'
  · rw [if_pos h, if_pos (hsub k h)]
  · rw [if_neg h]
    exact Nat.zero_le _

theorem mem_keysOf_filter {l : List RepoMetadata} {p : RepoMetadata → Bool}
    {x : String} (h : x ∈ keysOf (l.filter p)) : x ∈ keysOf l := by
  obtain ⟨r, hr, hrk⟩ := mem_keysOf.mp h
  exact mem_keysOf.mpr ⟨r, List.mem_of_mem_filter hr, hrk⟩

theorem removeKey_count_le {env : Env} (hs : env.saveOk = true) (st : Sys)
    (k k' : String) :
    countKey (load (removeKey env st k false).1) k' ≤ countKey (load st) k' := by
  rw [removeKey_eq, if_pos hs]
  dsimp only
  unfold load
  cases hpf : st.projectFile with
  | none =>
    dsimp only
    have : load st = loadFromPath st.globalFile := by
      unfold load
      rw [hpf]
    rw [← this]
    exact countKey_filter_le _ _ _
  | some pf =>
    dsimp only
    have hldst : load st = mergeByKey (loadFromPath st.globalFile) (loadFromPath pf) := by
      unfold load
      rw [hpf]
    rw [← hldst]
    apply countKey_le_of_nodup_subset (nodup_keysOf_mergeByKey _ _)
    · rw [hldst]
      exact nodup_keysOf_mergeByKey _ _
    · intro x hx
      rcases mem_keysOf_mergeByKey.mp hx with hx | hx
      · exact mem_keysOf_filter hx
      · rw [hldst]
        exact mem_keysOf_mergeByKey.mpr (Or.inr hx)

theorem deleteRepo_noerr {env : Env} (hs : env.saveOk = true)
    (hr : env.rmOk = true) (st : Sys) (k : String) :
    (deleteRepo env st k).2 = none := by
  cases hf : findByKey st k with
  | none => simp [deleteRepo, hf]
  | some r =>
    simp only [deleteRepo, hf]
    by_cases hfs : st.fs r.path ≠ .absent
    · rw [if_pos hfs, if_pos hr, removeKey_eq, if_pos hs]
    · rw [if_neg hfs, removeKey_eq, if_pos hs]

theorem deleteRepo_count_le {env : Env} (hs : env.saveOk = true)
    (hr : env.rmOk = true) (st : Sys) (k k' : String) :
    countKey (load (deleteRepo env st k).1) k' ≤ countKey (load st) k' := by
  cases hf : findByKey st k with
  | none => simp [deleteRepo, hf]
  | some r =>
    simp only [deleteRepo, hf]
    by_cases hfs : st.fs r.path ≠ .absent
    · rw [if_pos hfs, if_pos hr]
      have h := removeKey_count_le hs (rmPath st r.path) k k'
      rw [load_rmPath] at h
      exact h
    · rw [if_neg hfs]
      exact removeKey_count_le hs st k k'

theorem deleteRepo_fetchCount (env : Env) (st : Sys) (k : String) :
    (deleteRepo env st k).1.fetchCount = st.fetchCount := by
  cases hf : findByKey st k with
  | none => simp [deleteRepo, hf]
  | some r =>
    simp only [deleteRepo, hf]
    by_cases hfs : st.fs r.path ≠ .absent
    · rw [if_pos hfs]
      by_cases hrm : env.rmOk = true
      · rw [if_pos hrm]
        unfold removeKey
        exact (save_false_frame env (rmPath st r.path) _).2.2.2
      · rw [if_neg hrm]
    · rw [if_neg hfs]
      unfold removeKey
      exact (save_false_frame env st _).2.2.2

theorem deleteList_noerr_count {env : Env} (hs : env.saveOk = true)
    (hr : env.rmOk = true) :
    ∀ ks : List String, ∀ st : Sys,
      (deleteList env st ks).2 = none ∧
      (∀ k', countKey (load (deleteList env st ks).1) k' ≤ countKey (load st) k') ∧
      (deleteList env st ks).1.fetchCount = st.fetchCount := by
  intro ks
  induction ks with
  | nil => exact fun st => ⟨rfl, fun _ => Nat.le_refl _, rfl⟩
  | cons k ks ih =>
    intro st
    have hne := deleteRepo_noerr hs hr st k
    have hcnt := fun k' => deleteRepo_count_le hs hr st k k'
    have hfc := deleteRepo_fetchCount env st k
    cases hq : deleteRepo env st k with
    | mk st' e =>
      rw [hq] at hne hcnt hfc
      cases e with
      | some e' => exact absurd hne (by simp)
      | none =>
        obtain ⟨a, b, c⟩ := ih st'
        refine ⟨?_, ?_, ?_⟩
        · simp only [deleteList, hq]
          exact a
        · intro k'
          simp only [deleteList, hq]
          exact Nat.le_trans (b k') (hcnt k')
        · simp only [deleteList, hq]
          rw [c, hfc]

theorem ensureCapacity_noerr_count {env : Env} (hs : env.saveOk = true)
    (hr : env.rmOk = true) (cfg : GitHubExplorerConfig) (st : Sys) :
    (ensureCapacity env cfg st).2 = none ∧
    (∀ k', countKey (load (ensureCapacity env cfg st).1) k' ≤ countKey (load st) k') ∧
    (ensureCapacity env cfg st).1.fetchCount = st.fetchCount := by
  unfold ensureCapacity
  by_cases hc : cfg.maxClonedRepos ≤ (load st).length
  · rw [if_pos hc]
    unfold cleanupLRU
    exact deleteList_noerr_count hs hr _ st
  · rw [if_neg hc]
    exact ⟨rfl, fun _ => Nat.le_refl _, rfl⟩

theorem envCloneFail_saveOk : envCloneFail.saveOk = true := rfl

theorem envCloneFail_rmOk : envCloneFail.rmOk = true := rfl

/-- The fetch phase when the fetch collaborator fails: the partial artifact at
the target path is removed and the wrapped `Failed to clone` error surfaces;
no entry count for any key grows; the fetch was invoked once. -/
theorem cloneFetchPhase_fail (cfg : GitHubExplorerConfig) (st : Sys)
    (parsed : ParsedGitHubUrl) :
    (cloneFetchPhase envCloneFail cfg st parsed).2 =
      .error (.cloneFailed parsed.key .gitErr) ∧
    (cloneFetchPhase envCloneFail cfg st parsed).1.fs (clonePath cfg parsed) =
      .absent ∧
    (∀ k', countKey (load (cloneFetchPhase envCloneFail cfg st parsed).1) k' ≤
      countKey (load st) k') ∧
    (cloneFetchPhase envCloneFail cfg st parsed).1.fetchCount = st.fetchCount + 1 := by
  obtain ⟨h1, h2, h3⟩ :=
    ensureCapacity_noerr_count envCloneFail_saveOk envCloneFail_rmOk cfg st
  cases hq : ensureCapacity envCloneFail cfg st with
  | mk st₁ e =>
    rw [hq] at h1 h2 h3
    cases e with
    | some e' => exact absurd h1 (by simp)
    | none =>
      unfold cloneFetchPhase
      rw [hq]
      dsimp only
      rw [if_neg (by decide : ¬envCloneFail.cloneOk = true)]
      unfold cloneCatch
      rw [if_pos (by simp [setFs] : (setFs
          { st₁ with fetchCount := st₁.fetchCount + 1 }
          (clonePath cfg parsed) ArtifactState.noGit).fs (clonePath cfg parsed) ≠
          ArtifactState.absent)]
      rw [if_pos envCloneFail_rmOk]
      refine ⟨rfl, ?_, ?_, ?_⟩
      · show (if clonePath cfg parsed = clonePath cfg parsed then ArtifactState.absent
            else _) = ArtifactState.absent
        rw [if_pos rfl]
      · intro k'
        exact h2 k'
      · show st₁.fetchCount + 1 = st.fetchCount + 1
        rw [h3]

/-- C5: when the external fetch collaborator fails (and the filesystem and
store collaborators function), `cloneRepo` on a miss or stale hit removes the
partially-created artifact at the target path, surfaces the wrapping
`Failed to clone` error with the underlying fetch error inside, adds no entry
to the metadata store (no key's entry count grows), and invoked the fetch
exactly once. -/
theorem acquire_fetch_failure (cfg : GitHubExplorerConfig) (st : Sys)
    (input : String) (parsed : ParsedGitHubUrl)
    (hparse : parseGitHubUrl input = some parsed)
    (hv : validateGitHubNames parsed.owner parsed.repo = true)
    (hmiss : findByKey st parsed.key = none ∨
      ∃ e, findByKey st parsed.key = some e ∧ validateClone st e.path = false) :
    (cloneRepo envCloneFail cfg st input).2 =
      .error (.cloneFailed parsed.key .gitErr) ∧
    (cloneRepo envCloneFail cfg st input).1.fs (clonePath cfg parsed) = .absent ∧
    (∀ k', countKey (load (cloneRepo envCloneFail cfg st input).1) k' ≤
      countKey (load st) k') ∧
    (cloneRepo envCloneFail cfg st input).1.fetchCount = st.fetchCount + 1 := by
  unfold cloneRepo
  rw [hparse]
  dsimp only
  rw [if_pos hv]
  rcases hmiss with hf | ⟨e, hf, hval⟩
  · rw [hf]
    exact cloneFetchPhase_fail cfg st parsed
  · rw [hf]
    dsimp only
    rw [if_neg (by simp [hval])]
    have hne := deleteRepo_noerr envCloneFail_saveOk envCloneFail_rmOk st parsed.key
    have hcnt := fun k' =>
      deleteRepo_count_le envCloneFail_saveOk envCloneFail_rmOk st parsed.key k'
    have hfc := deleteRepo_fetchCount envCloneFail st parsed.key
    cases hq : deleteRepo envCloneFail st parsed.key with
    | mk st' e' =>
      rw [hq] at hne hcnt hfc
      cases e' with
      | some e'' => exact absurd hne (by simp)
      | none =>
        dsimp only
        obtain ⟨a, b, c, d⟩ := cloneFetchPhase_fail cfg st' parsed
        refine ⟨a, b, ?_, ?_⟩
        · intro k'
          exact Nat.le_trans (c k') (hcnt k')
        · rw [d, hfc]

/-- Witness for C5: a fetch failure on the empty store. -/
theorem acquire_fetch_failure_witness :
    (parseGitHubUrl "o/a" = some (mkParsed ['o'] ['a']) ∧
      findByKey stEmptyCap1 (mkParsed ['o'] ['a']).key = none) ∧
    (cloneRepo envCloneFail cfgCap1 stEmptyCap1 "o/a").2 =
      .error (.cloneFailed (mkParsed ['o'] ['a']).key .gitErr) ∧
    (cloneRepo envCloneFail cfgCap1 stEmptyCap1 "o/a").1.fs
      (clonePath cfgCap1 (mkParsed ['o'] ['a'])) = .absent :=
  ⟨⟨by decide, by decide⟩,
    ((acquire_fetch_failure cfgCap1 stEmptyCap1 "o/a" (mkParsed ['o'] ['a'])
      (by decide) (by decide) (Or.inl (by decide))).1),
    ((acquire_fetch_failure cfgCap1 stEmptyCap1 "o/a" (mkParsed ['o'] ['a'])
      (by decide) (by decide) (Or.inl (by decide))).2.1)⟩

/-! ## Claim C6 -/

theorem countKey_upsertList_self :
    ∀ l : List RepoMetadata, ∀ r : RepoMetadata,
      countKey l r.key ≤ 1 → countKey (upsertList l r) r.key = 1 := by
  intro l
  induction l with
  | nil =>
    intro r _
    show countKey [r] r.key = 1
    simp [countKey, List.countP_cons]
  | cons x xs ih =>
    intro r hle
    by_cases hx : x.key = r.key
    · have h1 : countKey (x :: xs) r.key = countKey xs r.key + 1 := by
        simp [countKey, List.countP_cons, hx]
      have h2 : countKey xs r.key = 0 := by omega
      simp only [upsertList, if_pos (by simp [hx] : (x.key == r.key) = true)]
      simp [countKey, List.countP_cons] at h2 ⊢
      exact h2
    · have h1 : countKey (x :: xs) r.key = countKey xs r.key := by
        simp [countKey, List.countP_cons, hx]
      simp only [upsertList, if_neg (by simp [hx] : ¬(x.key == r.key) = true)]
      have h3 := ih r (by omega)
      simp [countKey, List.countP_cons, hx] at h3 ⊢
      exact h3

theorem countKey_mergeByKey (g p : List RepoMetadata) (k : String) :
    countKey (mergeByKey g p) k =
      if k ∈ keysOf g ∨ k ∈ keysOf p then 1 else 0 := by
  rw [countKey_of_nodup k _ (nodup_keysOf_mergeByKey g p)]
  by_cases h : k ∈ keysOf g ∨ k ∈ keysOf p
  · rw [if_pos (mem_keysOf_mergeByKey.mpr h), if_pos h]
  · rw [if_neg (fun hc => h (mem_keysOf_mergeByKey.mp hc)), if_neg h]

theorem load_of_projectFile_none {st : Sys} (h : st.projectFile = none) :
    load st = glob st := by
  unfold load
  rw [h]
  rfl

theorem load_of_projectFile_some {st : Sys} {pf : FileState}
    (h : st.projectFile = some pf) :
    load st = mergeByKey (glob st) (loadFromPath pf) := by
  unfold load
  rw [h]
  rfl

theorem deleteRepo_fs_absent {env : Env} {st : Sys} {k p : String}
    (h : st.fs p = .absent) : (deleteRepo env st k).1.fs p = .absent := by
  cases hf : findByKey st k with
  | none => simpa [deleteRepo, hf] using h
  | some r =>
    simp only [deleteRepo, hf]
    by_cases hfs : st.fs r.path ≠ .absent
    · rw [if_pos hfs]
      by_cases hrm : env.rmOk = true
      · rw [if_pos hrm]
        unfold removeKey
        rw [(save_false_frame env (rmPath st r.path) _).2.1]
        show (if p = r.path then ArtifactState.absent else st.fs p) = _
        by_cases hp : p = r.path
        · rw [if_pos hp]
        · rw [if_neg hp, h]
      · rw [if_neg hrm]
        exact h
    · rw [if_neg hfs]
      unfold removeKey
      rw [(save_false_frame env st _).2.1]
      exact h

theorem deleteRepo_found_fs (st : Sys) (k : String) (e : RepoMetadata)
    (hf : findByKey st k = some e) :
    (deleteRepo okEnv st k).1.fs e.path = .absent := by
  simp only [deleteRepo, hf]
  by_cases hfs : st.fs e.path ≠ .absent
  · rw [if_pos hfs, if_pos okEnv_rmOk]
    unfold removeKey
    rw [(save_false_frame okEnv (rmPath st e.path) _).2.1]
    show (if e.path = e.path then ArtifactState.absent else st.fs e.path) = _
    rw [if_pos rfl]
  · rw [if_neg hfs]
    unfold removeKey
    rw [(save_false_frame okEnv st _).2.1]
    by_cases h' : st.fs e.path = ArtifactState.absent
    · exact h'
    · exact absurd h' (by simpa using hfs)

theorem deleteList_fs_absent {env : Env} {p : String} :
    ∀ ks : List String, ∀ st : Sys, st.fs p = .absent →
      (deleteList env st ks).1.fs p = .absent := by
  intro ks
  induction ks with
  | nil => exact fun st h => h
  | cons k ks ih =>
    intro st h
    have hd := @deleteRepo_fs_absent env st k p h
    cases hq : deleteRepo env st k with
    | mk st' e =>
      rw [hq] at hd
      cases e with
      | none =>
        simp only [deleteList, hq]
        exact ih st' hd
      | some e' =>
        simp only [deleteList, hq]
        exact hd

theorem ensureCapacity_fs_absent {env : Env} {cfg : GitHubExplorerConfig}
    {st : Sys} {p : String} (h : st.fs p = .absent) :
    (ensureCapacity env cfg st).1.fs p = .absent := by
  unfold ensureCapacity
  by_cases hc : cfg.maxClonedRepos ≤ (load st).length
  · rw [if_pos hc]
    unfold cleanupLRU
    exact deleteList_fs_absent _ st h
  · rw [if_neg hc]
    exact h

/-- The fetch phase under fully functioning collaborators, over an arbitrary
starting store (project entries allowed). -/
theorem cloneFetchPhase_ok_all (cfg : GitHubExplorerConfig) (st : Sys)
    (parsed : ParsedGitHubUrl) :
    ∃ st₁ : Sys,
      ensureCapacity okEnv cfg st = (st₁, none) ∧
      (cloneFetchPhase okEnv cfg st parsed).2 = .ok (clonePath cfg parsed) ∧
      glob (cloneFetchPhase okEnv cfg st parsed).1 =
        upsertList (load st₁) (freshMeta cfg parsed st₁.clock) ∧
      (cloneFetchPhase okEnv cfg st parsed).1.projectFile = st₁.projectFile ∧
      (cloneFetchPhase okEnv cfg st parsed).1.fs =
        (fun q => if q = clonePath cfg parsed then ArtifactState.valid else st₁.fs q) ∧
      (cloneFetchPhase okEnv cfg st parsed).1.fetchCount = st₁.fetchCount + 1 := by
  obtain ⟨h1, _, _⟩ := ensureCapacity_noerr_count okEnv_saveOk okEnv_rmOk cfg st
  cases hq : ensureCapacity okEnv cfg st with
  | mk st₁ e =>
    rw [hq] at h1
    cases e with
    | some e' => exact absurd h1 (by simp)
    | none =>
      refine ⟨st₁, rfl, ?_⟩
      unfold cloneFetchPhase
      rw [hq]
      dsimp only
      rw [if_pos okEnv_cloneOk]
      rw [upsert_ok_eq okEnv_saveOk]
      dsimp only
      exact ⟨rfl, rfl, rfl, rfl, rfl⟩

theorem deleteRepo_found_glob (st : Sys) (k : String) (e : RepoMetadata)
    (hf : findByKey st k = some e) :
    glob (deleteRepo okEnv st k).1 = (load st).filter (fun r => !(r.key == k)) := by
  simp only [deleteRepo, hf]
  by_cases hfs : st.fs e.path ≠ .absent
  · rw [if_pos hfs, if_pos okEnv_rmOk, removeKey_eq, if_pos okEnv_saveOk]
    rfl
  · rw [if_neg hfs, removeKey_eq, if_pos okEnv_saveOk]
    rfl

/-- C6: if an entry exists for the key but its on-disk artifact fails
validation, the next `cloneRepo` under functioning collaborators does not
fail: it returns the fresh clone path, invokes the fetch exactly once, leaves
the merged store with exactly one entry for the key, and the stale artifact's
location ends up absent (or holding the fresh clone when the stale path
coincides with the new target path). -/
theorem acquire_self_healing (cfg : GitHubExplorerConfig) (st : Sys)
    (input : String) (parsed : ParsedGitHubUrl) (e : RepoMetadata)
    (hparse : parseGitHubUrl input = some parsed)
    (hv : validateGitHubNames parsed.owner parsed.repo = true)
    (hf : findByKey st parsed.key = some e)
    (hval : validateClone st e.path = false) :
    (cloneRepo okEnv cfg st input).2 = .ok (clonePath cfg parsed) ∧
    (cloneRepo okEnv cfg st input).1.fetchCount = st.fetchCount + 1 ∧
    countKey (load (cloneRepo okEnv cfg st input).1) parsed.key = 1 ∧
    (cloneRepo okEnv cfg st input).1.fs e.path =
      (if e.path = clonePath cfg parsed then ArtifactState.valid
        else ArtifactState.absent) := by
  unfold cloneRepo
  rw [hparse]
  dsimp only
  rw [if_pos hv, hf]
  dsimp only
  rw [if_neg (by simp [hval])]
  have hne := deleteRepo_noerr okEnv_saveOk okEnv_rmOk st parsed.key
  have hfc := deleteRepo_fetchCount okEnv st parsed.key
  have hpfd := deleteRepo_projectFile okEnv st parsed.key
  have hfsd := deleteRepo_found_fs st parsed.key e hf
  have hgd := deleteRepo_found_glob st parsed.key e hf
  cases hq : deleteRepo okEnv st parsed.key with
  | mk st' e₀ =>
    rw [hq] at hne hfc hpfd hfsd hgd
    cases e₀ with
    | some e₁ => exact absurd hne (by simp)
    | none =>
      dsimp only
      obtain ⟨st₁, hq₁, hres, hg, hpf₁, hfs₁, hfetch₁⟩ :=
        cloneFetchPhase_ok_all cfg st' parsed
      have hecfc : st₁.fetchCount = st'.fetchCount := by
        have h := (ensureCapacity_noerr_count okEnv_saveOk okEnv_rmOk cfg st').2.2
        rw [hq₁] at h
        exact h
      have hecpf : st₁.projectFile = st'.projectFile := by
        have h := ensureCapacity_projectFile okEnv cfg st'
        rw [hq₁] at h
        exact h
      have heccnt : ∀ k', countKey (load st₁) k' ≤ countKey (load st') k' := by
        intro k'
        have h := (ensureCapacity_noerr_count okEnv_saveOk okEnv_rmOk cfg st').2.1 k'
        rw [hq₁] at h
        exact h
      have hecfs : st₁.fs e.path = .absent := by
        have h := @ensureCapacity_fs_absent okEnv cfg st' e.path hfsd
        rw [hq₁] at h
        exact h
      have hfreshkey : (freshMeta cfg parsed st₁.clock).key = parsed.key := rfl
      refine ⟨hres, ?_, ?_, ?_⟩
      · rw [hfetch₁, hecfc, hfc]
      · have hrespf : (cloneFetchPhase okEnv cfg st' parsed).1.projectFile =
            st.projectFile := by
          rw [hpf₁, hecpf, hpfd]
        cases hpcase : st.projectFile with
        | none =>
          rw [load_of_projectFile_none (by rw [hrespf, hpcase]), hg]
          rw [← hfreshkey]
          apply countKey_upsertList_self
          rw [hfreshkey]
          have h0 : countKey (load st') parsed.key = 0 := by
            rw [load_of_projectFile_none (by rw [hpfd, hpcase]), hgd]
            exact countKey_filter_ne _ _
          have := heccnt parsed.key
          omega
        | some pf =>
          rw [load_of_projectFile_some (by rw [hrespf, hpcase]), hg,
            countKey_mergeByKey]
          rw [if_pos]
          left
          have hmem := List.mem_of_find?_eq_some
            (@find?_upsertList_self (freshMeta cfg parsed st₁.clock) (load st₁))
          exact mem_keysOf.mpr ⟨freshMeta cfg parsed st₁.clock, hmem, hfreshkey⟩
      · rw [hfs₁]
        by_cases hp : e.path = clonePath cfg parsed
        · show (if e.path = clonePath cfg parsed then ArtifactState.valid
              else st₁.fs e.path) = _
          rw [if_pos hp, if_pos hp]
        · show (if e.path = clonePath cfg parsed then ArtifactState.valid
              else st₁.fs e.path) = _
          rw [if_neg hp, if_neg hp, hecfs]

/-- A store with a global entry for `o/a` whose artifact was deleted
out-of-band. -/
def stStale : Sys :=
  { globalFile := .ok [entOA], projectFile := none,
    fs := fun _ => .absent, clock := 7, fetchCount := 4 }

/-- Witness for C6: out-of-band deletion of the only artifact, then a
self-healing re-fetch. -/
theorem acquire_self_healing_witness :
    (findByKey stStale "o/a" = some entOA ∧
      validateClone stStale entOA.path = false) ∧
    (cloneRepo okEnv cfgCap5 stStale "o/a").2 = .ok (clonePath cfgCap5 (mkParsed ['o'] ['a'])) ∧
    countKey (load (cloneRepo okEnv cfgCap5 stStale "o/a").1) "o/a" = 1 :=
  ⟨⟨by decide, by decide⟩,
    (acquire_self_healing cfgCap5 stStale "o/a" (mkParsed ['o'] ['a']) entOA
      (by decide) (by decide) (by decide) (by decide)).1,
    (acquire_self_healing cfgCap5 stStale "o/a" (mkParsed ['o'] ['a']) entOA
      (by decide) (by decide) (by decide) (by decide)).2.2.1⟩

/-! ## Claim C7 -/

/-- No character with code point in `[45, 122]` (the range spanned by the
shorthand character classes and `'/'`) is JS whitespace. -/
theorem not_ws_of_bounds {c : Char} (h1 : 45 ≤ c.toNat) (h2 : c.toNat ≤ 122) :
    jsWhitespace c = false := by
  cases hw : jsWhitespace c
  · rfl
  · exfalso
    simp only [jsWhitespace, Bool.or_eq_true, Bool.and_eq_true, beq_iff_eq,
      decide_eq_true_eq] at hw
    rcases hw with (((((((((((((rfl|rfl)|rfl)|rfl)|rfl)|rfl)|rfl)|rfl)|rfl)|⟨ha,hb⟩)|rfl)|rfl)|rfl)|rfl)|rfl
    · exact absurd h1 (by decide)
    · exact absurd h1 (by decide)
    · exact absurd h1 (by decide)
    · exact absurd h1 (by decide)
    · exact absurd h1 (by decide)
    · exact absurd h1 (by decide)
    · exact absurd h2 (by decide)
    · exact absurd h2 (by decide)
    · exact absurd h2 (by decide)
    · have h8 : 8192 ≤ c.toNat := ha
      omega
    · exact absurd h2 (by decide)
    · exact absurd h2 (by decide)
    · exact absurd h2 (by decide)
    · exact absurd h2 (by decide)
    · exact absurd h2 (by decide)

/-- No character with code point in `[45, 122]` is a JS line terminator. -/
theorem not_lineTerm_of_bounds {c : Char} (h1 : 45 ≤ c.toNat)
    (h2 : c.toNat ≤ 122) : lineTerm c = false := by
  cases hw : lineTerm c
  · rfl
  · exfalso
    simp only [lineTerm, Bool.or_eq_true, beq_iff_eq] at hw
    rcases hw with ((rfl|rfl)|rfl)|rfl
    · exact absurd h1 (by decide)
    · exact absurd h1 (by decide)
    · exact absurd h2 (by decide)
    · exact absurd h2 (by decide)

/-- Characters of the class `[a-zA-Z0-9._-]` lie in `[45, 122]`. -/
theorem shRepoChar_bounds {c : Char} (h : shRepoChar c = true) :
    45 ≤ c.toNat ∧ c.toNat ≤ 122 := by
  simp only [shRepoChar, shOwnerChar, Bool.or_eq_true, Bool.and_eq_true,
    beq_iff_eq, decide_eq_true_eq] at h
  rcases h with ((((⟨ha, hb⟩|⟨ha, hb⟩)|⟨ha, hb⟩)|rfl)|rfl)|rfl
  · have ha' : 97 ≤ c.toNat := ha
    have hb' : c.toNat ≤ 122 := hb
    omega
  · have ha' : 65 ≤ c.toNat := ha
    have hb' : c.toNat ≤ 90 := hb
    omega
  · have ha' : 48 ≤ c.toNat := ha
    have hb' : c.toNat ≤ 57 := hb
    omega
  · exact ⟨by decide, by decide⟩
  · exact ⟨by decide, by decide⟩
  · exact ⟨by decide, by decide⟩

/-- The owner class is included in the repo class. -/
theorem shOwnerChar_shRepoChar {c : Char} (h : shOwnerChar c = true) :
    shRepoChar c = true := by
  simp only [shRepoChar, Bool.or_eq_true]
  exact Or.inl h

/-- `dropWhile` is the identity when no element satisfies the predicate. -/
theorem dropWhile_eq_self_of_all {p : Char → Bool} :
    ∀ {l : List Char}, (∀ c ∈ l, p c = false) → l.dropWhile p = l
  | [], _ => rfl
  | c :: cs, h => by
    rw [List.dropWhile_cons, h c (List.mem_cons_self c cs)]
    simp

/-- `trim` is the identity on a string with no JS-whitespace character. -/
theorem jsTrim_eq_self {l : List Char} (h : ∀ c ∈ l, jsWhitespace c = false) :
    jsTrim l = l := by
  unfold jsTrim
  rw [dropWhile_eq_self_of_all h,
    dropWhile_eq_self_of_all (fun c hc => h c (List.mem_reverse.mp hc)),
    List.reverse_reverse]

/-- Stripping a literal off itself (followed by anything) succeeds. -/
theorem stripLit_append : ∀ (p l : List Char), stripLit p (p ++ l) = some l
  | [], _ => rfl
  | c :: cs, l => by
    simp only [List.cons_append, stripLit, if_pos rfl]
    exact stripLit_append cs l

/-- A successful strip means the literal was a leading segment. -/
theorem stripLit_eq_some :
    ∀ {p l r : List Char}, stripLit p l = some r → l = p ++ r
  | [], _, _, h => by
    rw [stripLit] at h
    rw [List.nil_append, Option.some.inj h]
  | c :: cs, [], _, h => by cases h
  | c :: cs, x :: xs, r, h => by
    by_cases hx : x = c
    · subst hx
      rw [stripLit, if_pos rfl] at h
      rw [List.cons_append, ← stripLit_eq_some h]
    · rw [stripLit, if_neg hx] at h
      cases h

/-- A strip fails at the first character when the heads differ. -/
theorem stripLit_head_ne {a b : Char} {ps ls : List Char} (h : b ≠ a) :
    stripLit (a :: ps) (b :: ls) = none := by
  rw [stripLit, if_neg h]

/-- Head-mismatch strip failure, stated through equations so it applies to
prefix-shaped terms. -/
theorem stripLit_none_of_head {p l : List Char} {a b : Char} {ps ls : List Char}
    (hp : p = a :: ps) (hl : l = b :: ls) (hab : b ≠ a) : stripLit p l = none := by
  subst hp
  subst hl
  exact stripLit_head_ne hab

/-- Splitting at the first slash after a slash-free segment. -/
theorem breakAtSlash_append :
    ∀ {a : List Char} (b : List Char), (∀ c ∈ a, c ≠ '/') →
      breakAtSlash (a ++ '/' :: b) = some (a, b)
  | [], b, _ => by simp [breakAtSlash]
  | c :: cs, b, h => by
    rw [List.cons_append, breakAtSlash,
      if_neg (h c (List.mem_cons_self c cs)),
      breakAtSlash_append b (fun x hx => h x (List.mem_cons_of_mem c hx))]

/-- The lazy tail on a repo part that does not end in `".git"`: nothing is
stripped. -/
theorem repoOfRest_no_suffix {re : List Char} (h1 : re ≠ [])
    (h2 : gitSuffix.isSuffixOf re = false)
    (h3 : ∀ c ∈ re, lineTerm c = false) :
    repoOfRest re = some re := by
  unfold repoOfRest
  rw [if_neg (fun hc => by rw [h2] at hc; exact absurd hc.1 (by decide)),
    if_pos ⟨h1, by simpa [List.all_eq_true] using h3⟩]

/-- The lazy tail on a repo part followed by a literal `".git"`: exactly the
suffix is stripped. -/
theorem repoOfRest_suffix {re : List Char} (h1 : re ≠ [])
    (h3 : ∀ c ∈ re, lineTerm c = false) :
    repoOfRest (re ++ gitSuffix) = some re := by
  have hlen : (re ++ gitSuffix).length = re.length + 4 := by
    simp [List.length_append, gitSuffix]
  have hsfx : gitSuffix.isSuffixOf (re ++ gitSuffix) = true := by
    rw [List.isSuffixOf_iff_suffix]
    exact List.suffix_append re gitSuffix
  have hpos : 0 < re.length := List.length_pos.mpr h1
  unfold repoOfRest
  rw [if_pos ⟨hsfx, by omega⟩]
  have htake : (re ++ gitSuffix).take ((re ++ gitSuffix).length - 4) = re := by
    rw [hlen, Nat.add_sub_cancel, List.take_left]
  rw [htake, if_pos (by simpa [List.all_eq_true] using h3)]

/-- The lazy tail never matches an empty repo part. -/
theorem repoOfRest_nil : repoOfRest [] = none := by decide

/-- A successful repo-part match implies the part was nonempty. -/
theorem repoOfRest_ne_nil {rest re : List Char}
    (h : repoOfRest rest = some re) : rest ≠ [] := by
  intro hn
  subst hn
  rw [repoOfRest_nil] at h
  cases h

/-- The web matcher on the canonical https prefix followed by
`owner/rest`. -/
theorem matchHttps_append {ow rest r : List Char} (how : ow ≠ [])
    (hsl : ∀ c ∈ ow, c ≠ '/') (hre : repoOfRest rest = some r) :
    matchHttps ("https://github.com/".data ++ (ow ++ '/' :: rest)) =
      some (ow, r) := by
  unfold matchHttps
  rw [stripLit_append]
  dsimp only
  rw [breakAtSlash_append rest hsl]
  dsimp only
  rw [if_neg how, hre]

/-- The SSH matcher on the canonical ssh prefix followed by `owner/rest`. -/
theorem matchSsh_append {ow rest r : List Char} (how : ow ≠ [])
    (hsl : ∀ c ∈ ow, c ≠ '/') (hre : repoOfRest rest = some r) :
    matchSsh ("git@github.com:".data ++ (ow ++ '/' :: rest)) = some (ow, r) := by
  unfold matchSsh
  rw [stripLit_append]
  dsimp only
  rw [breakAtSlash_append rest hsl]
  dsimp only
  rw [if_neg how, hre]

/-- The shorthand matcher on `owner/repo` with class-valid names. -/
theorem matchShorthand_eq {ow re : List Char} (how : ow ≠ []) (hre : re ≠ [])
    (haw : ow.all shOwnerChar = true) (har : re.all shRepoChar = true)
    (hsl : ∀ c ∈ ow, c ≠ '/') :
    matchShorthand (ow ++ '/' :: re) = some (ow, re) := by
  unfold matchShorthand
  rw [breakAtSlash_append re hsl]
  dsimp only
  rw [if_pos ⟨how, hre, haw, har⟩]

/-- The web matcher fails when both prefix strips fail. -/
theorem matchHttps_none {l : List Char}
    (h1 : stripLit "https://github.com/".data l = none)
    (h2 : stripLit "http://github.com/".data l = none) :
    matchHttps l = none := by
  unfold matchHttps
  rw [h1, h2]

/-- The SSH matcher fails when the prefix strip fails. -/
theorem matchSsh_none {l : List Char}
    (h : stripLit "git@github.com:".data l = none) : matchSsh l = none := by
  unfold matchSsh
  rw [h]

/-- A literal containing `':'` never strips off a string made of shorthand
characters and slashes. -/
theorem stripLit_none_of_colon {p l : List Char} (hp : ':' ∈ p)
    (hl : ∀ c ∈ l, c = '/' ∨ shRepoChar c = true) : stripLit p l = none := by
  cases h : stripLit p l with
  | none => rfl
  | some r =>
    exfalso
    have heq := stripLit_eq_some h
    have hcl : (':' : Char) ∈ l := heq ▸ List.mem_append.mpr (Or.inl hp)
    rcases hl _ hcl with h' | h'
    · exact absurd h' (by decide)
    · exact absurd h' (by decide)

/-- Every character of a shorthand `owner/repo` body is a slash or a repo
character. -/
theorem shorthand_chars {ow re : List Char} (haw : ow.all shOwnerChar = true)
    (har : re.all shRepoChar = true) :
    ∀ c ∈ ow ++ '/' :: re, c = '/' ∨ shRepoChar c = true := by
  intro c hc
  rcases List.mem_append.mp hc with h | h
  · exact Or.inr (shOwnerChar_shRepoChar (List.all_eq_true.mp haw c h))
  · rcases List.mem_cons.mp h with rfl | h
    · exact Or.inl rfl
    · exact Or.inr (List.all_eq_true.mp har c h)

/-- Repo-class characters are not JS whitespace. -/
theorem ws_false_of_shRepo {c : Char} (h : shRepoChar c = true) :
    jsWhitespace c = false :=
  not_ws_of_bounds (shRepoChar_bounds h).1 (shRepoChar_bounds h).2

/-- Repo-class characters are not line terminators. -/
theorem lineTerm_false_of_shRepo {c : Char} (h : shRepoChar c = true) :
    lineTerm c = false :=
  not_lineTerm_of_bounds (shRepoChar_bounds h).1 (shRepoChar_bounds h).2

/-- Whitespace-freeness is preserved by concatenation. -/
theorem ws_false_append {l₁ l₂ : List Char}
    (h1 : ∀ c ∈ l₁, jsWhitespace c = false)
    (h2 : ∀ c ∈ l₂, jsWhitespace c = false) :
    ∀ c ∈ l₁ ++ l₂, jsWhitespace c = false := by
  intro c hc
  rcases List.mem_append.mp hc with h | h
  · exact h1 c h
  · exact h2 c h

/-- Whitespace-freeness of a shorthand body. -/
theorem ws_false_shorthand {ow re : List Char} (haw : ow.all shOwnerChar = true)
    (har : re.all shRepoChar = true) :
    ∀ c ∈ ow ++ '/' :: re, jsWhitespace c = false := by
  intro c hc
  rcases shorthand_chars haw har c hc with rfl | h
  · decide
  · exact ws_false_of_shRepo h

/-- Splitting the character data of `p ++ owner ++ "/" ++ repo`. -/
theorem data_split3 (p o r : String) :
    (p ++ o ++ "/" ++ r).data = p.data ++ (o.data ++ '/' :: r.data) := by
  have hs : ("/" : String).data = ['/'] := rfl
  simp [String.data_append, hs, List.append_assoc]

/-- Splitting the character data of `p ++ owner ++ "/" ++ repo ++ ".git"`. -/
theorem data_split3_git (p o r : String) :
    (p ++ o ++ "/" ++ r ++ ".git").data =
      p.data ++ (o.data ++ '/' :: (r.data ++ gitSuffix)) := by
  have hs : ("/" : String).data = ['/'] := rfl
  have hg : (".git" : String).data = gitSuffix := rfl
  simp [String.data_append, hs, hg, gitSuffix, List.append_assoc]

/-- Splitting the character data of `owner ++ "/" ++ repo`. -/
theorem data_split2 (o r : String) :
    (o ++ "/" ++ r).data = o.data ++ '/' :: r.data := by
  have hs : ("/" : String).data = ['/'] := rfl
  simp [String.data_append, hs, List.append_assoc]

/-- C7: the claim quantifies over every owner and repo, but when the repo
name itself ends in `".git"` the web form strips the suffix while the
shorthand form keeps it, so the two recognized forms built from the same
owner/repo disagree on the canonical key. -/
theorem normalizer_counterexample :
    (parseGitHubUrl "a/b.git").map (fun p => p.key) = some "a/b.git" ∧
    (parseGitHubUrl "https://github.com/a/b.git").map (fun p => p.key) =
      some "a/b" ∧
    parseGitHubUrl "a/b.git" ≠ parseGitHubUrl "https://github.com/a/b.git" := by
  decide

/-- C7: for every owner in the class `[a-zA-Z0-9_-]+` and repo in the class
`[a-zA-Z0-9._-]+` not itself ending in `".git"`, the normalizer maps all five
recognized input forms - web URL with and without trailing `.git`, SSH remote
with and without trailing `.git`, and shorthand - to the identical output,
with `owner`/`repo` case-preserving, `key = owner/repo` and
`url = https://github.com/owner/repo.git`. -/
theorem normalizer_canonical (owner repo : String)
    (how : owner.data ≠ []) (haw : owner.data.all shOwnerChar = true)
    (hre : repo.data ≠ []) (har : repo.data.all shRepoChar = true)
    (hng : gitSuffix.isSuffixOf repo.data = false) :
    parseGitHubUrl ("https://github.com/" ++ owner ++ "/" ++ repo) =
        some (mkParsed owner.data repo.data) ∧
    parseGitHubUrl ("https://github.com/" ++ owner ++ "/" ++ repo ++ ".git") =
        some (mkParsed owner.data repo.data) ∧
    parseGitHubUrl ("git@github.com:" ++ owner ++ "/" ++ repo) =
        some (mkParsed owner.data repo.data) ∧
    parseGitHubUrl ("git@github.com:" ++ owner ++ "/" ++ repo ++ ".git") =
        some (mkParsed owner.data repo.data) ∧
    parseGitHubUrl (owner ++ "/" ++ repo) =
        some (mkParsed owner.data repo.data) ∧
    (mkParsed owner.data repo.data).owner = owner ∧
    (mkParsed owner.data repo.data).repo = repo ∧
    (mkParsed owner.data repo.data).key = owner ++ "/" ++ repo ∧
    (mkParsed owner.data repo.data).url =
      "https://github.com/" ++ owner ++ "/" ++ repo ++ ".git" := by
  have hsl : ∀ c ∈ owner.data, c ≠ '/' := by
    intro c hc hceq
    have hcl := List.all_eq_true.mp haw c hc
    rw [hceq] at hcl
    exact absurd hcl (by decide)
  have hlt : ∀ c ∈ repo.data, lineTerm c = false :=
    fun c hc => lineTerm_false_of_shRepo (List.all_eq_true.mp har c hc)
  have harg : (repo.data ++ gitSuffix).all shRepoChar = true := by
    rw [List.all_append, har]
    decide
  have hltg : ∀ c ∈ repo.data ++ gitSuffix, lineTerm c = false :=
    fun c hc => lineTerm_false_of_shRepo (List.all_eq_true.mp harg c hc)
  have hror : repoOfRest repo.data = some repo.data :=
    repoOfRest_no_suffix hre hng hlt
  have hrorg : repoOfRest (repo.data ++ gitSuffix) = some repo.data :=
    repoOfRest_suffix hre hlt
  have hwsL : ∀ c ∈ owner.data ++ '/' :: repo.data, jsWhitespace c = false :=
    ws_false_shorthand haw har
  have hwsLg : ∀ c ∈ owner.data ++ '/' :: (repo.data ++ gitSuffix),
      jsWhitespace c = false := ws_false_shorthand haw harg
  have hcls : ∀ c ∈ owner.data ++ '/' :: repo.data,
      c = '/' ∨ shRepoChar c = true := shorthand_chars haw har
  have hwsH : ∀ c ∈ ("https://github.com/" : String).data,
      jsWhitespace c = false := by decide
  have hwsS : ∀ c ∈ ("git@github.com:" : String).data,
      jsWhitespace c = false := by decide
  have hweb : parseGitHubUrl ("https://github.com/" ++ owner ++ "/" ++ repo) =
      some (mkParsed owner.data repo.data) := by
    unfold parseGitHubUrl
    rw [data_split3, jsTrim_eq_self (ws_false_append hwsH hwsL)]
    dsimp only
    rw [matchHttps_append how hsl hror]
  have hwebg : parseGitHubUrl
      ("https://github.com/" ++ owner ++ "/" ++ repo ++ ".git") =
      some (mkParsed owner.data repo.data) := by
    unfold parseGitHubUrl
    rw [data_split3_git, jsTrim_eq_self (ws_false_append hwsH hwsLg)]
    dsimp only
    rw [matchHttps_append how hsl hrorg]
  have hconsS : ("git@github.com:" : String).data ++
      (owner.data ++ '/' :: repo.data) =
      'g' :: (("it@github.com:" : String).data ++
        (owner.data ++ '/' :: repo.data)) := rfl
  have hconsSg : ("git@github.com:" : String).data ++
      (owner.data ++ '/' :: (repo.data ++ gitSuffix)) =
      'g' :: (("it@github.com:" : String).data ++
        (owner.data ++ '/' :: (repo.data ++ gitSuffix))) := rfl
  have hssh : parseGitHubUrl ("git@github.com:" ++ owner ++ "/" ++ repo) =
      some (mkParsed owner.data repo.data) := by
    unfold parseGitHubUrl
    rw [data_split3, jsTrim_eq_self (ws_false_append hwsS hwsL)]
    dsimp only
    rw [matchHttps_none (stripLit_none_of_head rfl hconsS (by decide))
        (stripLit_none_of_head rfl hconsS (by decide))]
    dsimp only
    rw [matchSsh_append how hsl hror]
  have hsshg : parseGitHubUrl
      ("git@github.com:" ++ owner ++ "/" ++ repo ++ ".git") =
      some (mkParsed owner.data repo.data) := by
    unfold parseGitHubUrl
    rw [data_split3_git, jsTrim_eq_self (ws_false_append hwsS hwsLg)]
    dsimp only
    rw [matchHttps_none (stripLit_none_of_head rfl hconsSg (by decide))
        (stripLit_none_of_head rfl hconsSg (by decide))]
    dsimp only
    rw [matchSsh_append how hsl hrorg]
  have hsh : parseGitHubUrl (owner ++ "/" ++ repo) =
      some (mkParsed owner.data repo.data) := by
    unfold parseGitHubUrl
    rw [data_split2, jsTrim_eq_self hwsL]
    dsimp only
    rw [matchHttps_none (stripLit_none_of_colon (by decide) hcls)
        (stripLit_none_of_colon (by decide) hcls)]
    dsimp only
    rw [matchSsh_none (stripLit_none_of_colon (by decide) hcls)]
    dsimp only
    rw [matchShorthand_eq how hre haw har hsl]
  exact ⟨hweb, hwebg, hssh, hsshg, hsh, rfl, rfl, rfl, rfl⟩

/-- Witness for C7: the canonical agreement at `octocat/Hello-World`. -/
theorem normalizer_canonical_witness :
    (("octocat" : String).data ≠ [] ∧
      ("octocat" : String).data.all shOwnerChar = true ∧
      ("Hello-World" : String).data ≠ [] ∧
      ("Hello-World" : String).data.all shRepoChar = true ∧
      gitSuffix.isSuffixOf ("Hello-World" : String).data = false) ∧
    parseGitHubUrl ("octocat" ++ "/" ++ "Hello-World") =
      some (mkParsed ("octocat" : String).data ("Hello-World" : String).data) :=
  ⟨⟨by decide, by decide, by decide, by decide, by decide⟩,
    (normalizer_canonical "octocat" "Hello-World" (by decide) (by decide)
      (by decide) (by decide) (by decide)).2.2.2.2.1⟩

/-! ## Claim C8 -/

/-- Spec shape 1, from the spec's words: a web URL form
`http(s)://github.com/<owner>/<repo>[.git]` - a github https/http host
prefix, then a nonempty first path segment (the owner) before a slash, then a
nonempty remainder (the repo, with its optional `.git` tail). -/
def webShapeB (l : List Char) : Bool :=
  match (match stripLit "https://github.com/".data l with
         | some r => some r
         | none => stripLit "http://github.com/".data l) with
  | none => false
  | some r =>
    match breakAtSlash r with
    | none => false
    | some (ow, rest) => decide (ow ≠ []) && decide (rest ≠ [])

/-- Spec shape 2: an SSH remote form `git@github.com:<owner>/<repo>[.git]`. -/
def sshShapeB (l : List Char) : Bool :=
  match stripLit "git@github.com:".data l with
  | none => false
  | some r =>
    match breakAtSlash r with
    | none => false
    | some (ow, rest) => decide (ow ≠ []) && decide (rest ≠ [])

/-- Spec shape 3: the shorthand form `<owner>/<repo>` with owner matching
`[A-Za-z0-9_-]+` and repo matching `[A-Za-z0-9._-]+`. -/
def shShapeB (l : List Char) : Bool :=
  match breakAtSlash l with
  | none => false
  | some (ow, re) =>
    decide (ow ≠ []) && decide (re ≠ []) && ow.all shOwnerChar && re.all shRepoChar

/-- A successful web match implies the spec's web shape. -/
theorem matchHttps_shape {l ow re : List Char}
    (h : matchHttps l = some (ow, re)) : webShapeB l = true := by
  unfold matchHttps at h
  dsimp only at h
  unfold webShapeB
  split at h
  next heq => rw [heq]; cases h
  next r heq =>
    rw [heq]
    dsimp only
    split at h
    next => cases h
    next ow' rest heq2 =>
      split at h
      next => cases h
      next hne =>
        split at h
        next => cases h
        next rp heq3 =>
          simp [hne, repoOfRest_ne_nil heq3]

/-- A successful SSH match implies the spec's SSH shape. -/
theorem matchSsh_shape {l ow re : List Char}
    (h : matchSsh l = some (ow, re)) : sshShapeB l = true := by
  unfold matchSsh at h
  unfold sshShapeB
  split at h
  next => cases h
  next r heq =>
    split at h
    next => cases h
    next ow' rest heq2 =>
      split at h
      next => cases h
      next hne =>
        split at h
        next => cases h
        next rp heq3 =>
          simp [hne, repoOfRest_ne_nil heq3]

/-- A successful shorthand match implies the spec's shorthand shape. -/
theorem matchShorthand_shape {l ow re : List Char}
    (h : matchShorthand l = some (ow, re)) : shShapeB l = true := by
  unfold matchShorthand at h
  unfold shShapeB
  split at h
  next => cases h
  next ow' re' heq =>
    split at h
    next hc =>
      rcases hc with ⟨h1, h2, h3, h4⟩
      simp [h1, h2, h3, h4]
    next => cases h

/-- C8: an input whose trimmed text matches none of the three recognized
shapes (web URL on the github host, SSH remote on the github host, shorthand
`owner/repo`) is rejected with no result; in particular `"not-a-url"`, the
empty string and `"https://gitlab.com/a/b"` all yield no result. -/
theorem unparseable_rejected :
    (∀ s : String, webShapeB (jsTrim s.data) = false →
      sshShapeB (jsTrim s.data) = false →
      shShapeB (jsTrim s.data) = false →
      parseGitHubUrl s = none) ∧
    parseGitHubUrl "not-a-url" = none ∧
    parseGitHubUrl "" = none ∧
    parseGitHubUrl "https://gitlab.com/a/b" = none := by
  refine ⟨?_, by decide, by decide, by decide⟩
  intro s hw hs hh
  unfold parseGitHubUrl
  dsimp only
  cases hm : matchHttps (jsTrim s.data) with
  | some p =>
    obtain ⟨ow, re⟩ := p
    have ht := matchHttps_shape hm
    rw [hw] at ht
    cases ht
  | none =>
    cases hm2 : matchSsh (jsTrim s.data) with
    | some p =>
      obtain ⟨ow, re⟩ := p
      have ht := matchSsh_shape hm2
      rw [hs] at ht
      cases ht
    | none =>
      cases hm3 : matchShorthand (jsTrim s.data) with
      | some p =>
        obtain ⟨ow, re⟩ := p
        have ht := matchShorthand_shape hm3
        rw [hh] at ht
        cases ht
      | none => rfl

/-- Witness for C8 at the shape-free input `"github.com"`. -/
theorem unparseable_rejected_witness :
    webShapeB (jsTrim ("github.com" : String).data) = false ∧
    sshShapeB (jsTrim ("github.com" : String).data) = false ∧
    shShapeB (jsTrim ("github.com" : String).data) = false ∧
    parseGitHubUrl "github.com" = none :=
  ⟨by decide, by decide, by decide,
    unparseable_rejected.1 "github.com" (by decide) (by decide) (by decide)⟩

/-! ## Claim C9 -/

/-- `Map.set` keeps an existing entry with a different key. -/
theorem setKey_mem_of_mem {l : List RepoMetadata} {r x : RepoMetadata}
    (h : r ∈ l) (hne : x.key ≠ r.key) : r ∈ setKey l x := by
  unfold setKey
  split
  · refine List.mem_map.mpr ⟨r, h, ?_⟩
    have hb : (r.key == x.key) = false := by
      rw [beq_eq_false_iff_ne]
      exact fun hc => hne hc.symm
    simp [hb]
  · exact List.mem_append.mpr (Or.inl h)

/-- `Map.set` puts its argument into the collection. -/
theorem setKey_mem_self (l : List RepoMetadata) (x : RepoMetadata) :
    x ∈ setKey l x := by
  unfold setKey
  split
  next hany =>
    obtain ⟨y, hy, hkey⟩ := List.any_eq_true.mp hany
    exact List.mem_map.mpr ⟨y, hy, by simp [hkey]⟩
  next => exact List.mem_append.mpr (Or.inr (by simp))

/-- An accumulator entry survives an insertion run over keys it does not
carry. -/
theorem mem_foldl_setKey_acc :
    ∀ (l : List RepoMetadata) {acc : List RepoMetadata} {r : RepoMetadata},
      r ∈ acc → r.key ∉ keysOf l → r ∈ l.foldl setKey acc
  | [], _, _, h, _ => h
  | x :: xs, acc, r, h, hk => by
    rw [List.foldl_cons]
    refine mem_foldl_setKey_acc xs ?_ (fun hc => hk ?_)
    · refine setKey_mem_of_mem h (fun hc => hk ?_)
      exact mem_keysOf.mpr ⟨x, List.mem_cons_self x xs, hc⟩
    · obtain ⟨y, hy, hyk⟩ := mem_keysOf.mp hc
      exact mem_keysOf.mpr ⟨y, List.mem_cons_of_mem x hy, hyk⟩

/-- Inserting a key-distinct run puts every one of its entries into the
resulting collection, whatever the accumulator. -/
theorem mem_foldl_setKey_self :
    ∀ (p : List RepoMetadata) (acc : List RepoMetadata) {r : RepoMetadata},
      r ∈ p → (keysOf p).Nodup → r ∈ p.foldl setKey acc
  | [], _, _, h, _ => absurd h (List.not_mem_nil _)
  | x :: xs, acc, r, h, hnd => by
    rw [List.foldl_cons]
    rcases List.mem_cons.mp h with rfl | h'
    · refine mem_foldl_setKey_acc xs (setKey_mem_self acc r) ?_
      simp only [keysOf, List.map_cons, List.nodup_cons] at hnd
      exact fun hc => hnd.1 (by simpa [keysOf] using hc)
    · refine mem_foldl_setKey_self xs (setKey acc x) h' ?_
      simp only [keysOf, List.map_cons, List.nodup_cons] at hnd
      exact hnd.2

/-- A project entry (with key-distinct project file) is in the merge. -/
theorem mergeByKey_project_mem {g p : List RepoMetadata} {r : RepoMetadata}
    (hp : (keysOf p).Nodup) (h : r ∈ p) : r ∈ mergeByKey g p := by
  unfold mergeByKey
  rw [List.foldl_append]
  exact mem_foldl_setKey_self p _ h hp

/-- A global file holding two records with the same key. -/
def entDupA : RepoMetadata :=
  { key := "k", url := "u1", path := "/p1", clonedAt := 0, lastAccessed := 0,
    size := none }

/-- A second record with the key of `entDupA`. -/
def entDupB : RepoMetadata :=
  { key := "k", url := "u2", path := "/p2", clonedAt := 1, lastAccessed := 1,
    size := none }

/-- A store with a duplicated global key and no project scope configured. -/
def stDup : Sys :=
  { globalFile := .ok [entDupA, entDupB], projectFile := none,
    fs := fun _ => .absent, clock := 0, fetchCount := 0 }

/-- C9: when no project scope is configured, `load` returns the global file
verbatim without the key-deduplicating merge, so a global file carrying two
records with the same key yields a merged view with a duplicated key - the
claimed uniqueness of keys in the merged result fails. -/
theorem store_uniqueness_counterexample :
    countKey (load stDup) "k" = 2 ∧ ¬ (keysOf (load stDup)).Nodup := by
  decide

/-- C9 amended: `load` is the global collection verbatim when no project
scope is configured; with a configured project scope it is the by-key merge
of the two collections and its keys are then pairwise distinct; a project
entry overrides the global scope - it is in the merge and is the only entry
with its key; and a missing or corrupt file contributes the empty
collection. -/
theorem load_merge_semantics :
    (∀ st : Sys, st.projectFile = none →
      load st = loadFromPath st.globalFile) ∧
    (∀ (st : Sys) (pf : FileState), st.projectFile = some pf →
      load st = mergeByKey (loadFromPath st.globalFile) (loadFromPath pf) ∧
      (keysOf (load st)).Nodup) ∧
    (∀ (g p : List RepoMetadata) (r : RepoMetadata),
      (keysOf p).Nodup → r ∈ p →
      r ∈ mergeByKey g p ∧ countKey (mergeByKey g p) r.key = 1) ∧
    loadFromPath .missing = [] ∧ loadFromPath .corrupt = [] := by
  refine ⟨?_, ?_, ?_, rfl, rfl⟩
  · intro st h
    exact load_of_projectFile_none h
  · intro st pf h
    refine ⟨load_of_projectFile_some h, ?_⟩
    rw [load_of_projectFile_some h]
    exact nodup_keysOf_mergeByKey _ _
  · intro g p r hp h
    refine ⟨mergeByKey_project_mem hp h, ?_⟩
    rw [countKey_mergeByKey]
    exact if_pos (Or.inr (mem_keysOf.mpr ⟨r, h, rfl⟩))

/-- A project-scope record overriding the global record of key `o/a`. -/
def entProjOA : RepoMetadata :=
  { key := "o/a", url := "proj", path := "/pp", clonedAt := 1,
    lastAccessed := 9, size := none }

/-- Witness for C9: the project record wins the merge of two one-record
scopes with the same key. -/
theorem load_merge_semantics_witness :
    ((keysOf [entProjOA]).Nodup ∧ entProjOA ∈ [entProjOA]) ∧
    entProjOA ∈ mergeByKey [entOA] [entProjOA] ∧
    countKey (mergeByKey [entOA] [entProjOA]) entProjOA.key = 1 :=
  ⟨⟨by decide, by decide⟩,
    load_merge_semantics.2.2.1 [entOA] [entProjOA] entProjOA
      (by decide) (by decide)⟩

/-! ## Claim C10 -/

/-- C10: every store mutation issued by the manager - the `upsert`s of the
hit and post-fetch paths and the `remove` of the deletion step - runs at the
default global scope.  The project file is left untouched by `upsert`,
`remove`, `updateLastAccessed`, `deleteRepo`, `cleanupLRU` and `cloneRepo`;
and when the write goes through, `upsert`/`remove` serialize the entire
merged collection (`load`, project-scope entries included) to the global
file. -/
theorem mutations_global_scope :
    (∀ (env : Env) (st : Sys) (r : RepoMetadata),
      (upsert env st r false).1.projectFile = st.projectFile) ∧
    (∀ (env : Env) (st : Sys) (k : String),
      (removeKey env st k false).1.projectFile = st.projectFile) ∧
    (∀ (env : Env) (st : Sys) (k : String),
      (updateLastAccessed env st k).1.projectFile = st.projectFile) ∧
    (∀ (env : Env) (st : Sys) (k : String),
      (deleteRepo env st k).1.projectFile = st.projectFile) ∧
    (∀ (env : Env) (st : Sys) (n : Nat),
      (cleanupLRU env st n).1.projectFile = st.projectFile) ∧
    (∀ (env : Env) (cfg : GitHubExplorerConfig) (st : Sys) (input : String),
      (cloneRepo env cfg st input).1.projectFile = st.projectFile) ∧
    (∀ (env : Env) (st : Sys) (r : RepoMetadata), env.saveOk = true →
      (upsert env st r false).1.globalFile = .ok (upsertList (load st) r)) ∧
    (∀ (env : Env) (st : Sys) (k : String), env.saveOk = true →
      (removeKey env st k false).1.globalFile =
        .ok ((load st).filter (fun r => !(r.key == k)))) := by
  refine ⟨upsert_projectFile, removeKey_projectFile,
    updateLastAccessed_projectFile, deleteRepo_projectFile,
    cleanupLRU_projectFile,
    fun env cfg st input => cloneRepo_projectFile env cfg st input,
    ?_, ?_⟩
  · intro env st r hs
    rw [upsert_ok_eq hs]
  · intro env st k hs
    rw [removeKey_ok_eq hs]

/-- Witness for C10: a functioning write on the store whose only entry lives
in the project scope serializes the merged view to the global file. -/
theorem mutations_global_scope_witness :
    okEnv.saveOk = true ∧
    (upsert okEnv stProj entOR false).1.globalFile =
      .ok (upsertList (load stProj) entOR) :=
  ⟨rfl, mutations_global_scope.2.2.2.2.2.2.1 okEnv stProj entOR rfl⟩
